import Mathlib

/-!
Verification development for the `golib/slim` template compiler.

The repository is a three-stage pipeline written in Go:
  * a stateful tokenizer (`src/parser/scanner.go`, first half),
  * a recursive-descent parser with cross-file inheritance
    (`src/parser/parser.go`),
  * a code generator lowering embedded expressions
    (`src/parser/scanner.go`, second half — the `slim` package).

Go strings are modelled as `List Char`; Go maps with string keys as
association lists (lookup of a missing key yields the zero value `""`,
exactly as in Go).  The scanner's regular expressions are embedded as an
explicit regex AST and run through a fuelled backtracking matcher whose
priority order (leftmost-first, greedy/lazy as marked) matches the
submatch semantics documented for Go's `regexp` package.
-/

namespace Slim

/-- Characters of a string literal: Go strings are modelled as lists of characters. -/
def chars (s : String) : List Char := s.data

/-- Abbreviation for the model of Go strings. -/
abbrev Str := List Char

/-- Embedding of Go `unicode.IsSpace` (and of the regexp class `\s`) on the
ASCII characters that can occur here. -/
def isSpaceGo (c : Char) : Bool :=
  c = ' ' || c = '\t' || c = '\n' || c = '\r' || c = Char.ofNat 11 || c = Char.ofNat 12

/-- The regexp character class `\w` = `[0-9A-Za-z_]`. -/
def isWordCh (c : Char) : Bool :=
  ('0' ≤ c && c ≤ '9') || ('a' ≤ c && c ≤ 'z') || ('A' ≤ c && c ≤ 'Z') || c = '_'

/-- Embedding of `strings.TrimRightFunc(s, unicode.IsSpace)`. -/
def trimRight (s : Str) : Str := (s.reverse.dropWhile isSpaceGo).reverse

/-- Whether `pre` occurs at the very start of `s`. -/
def strStarts (pre s : Str) : Bool := s.take pre.length = pre

/-- Whether `needle` occurs anywhere inside `hay`.  This models an
unanchored `regexp.FindString` of a `regexp.QuoteMeta`-quoted literal, as
used for the entries of the scanner's indentation stack. -/
def strOccurs (needle hay : Str) : Bool :=
  match hay with
  | [] => needle.isEmpty
  | _ :: t => strStarts needle hay || strOccurs needle t

/-- Worker for `replaceAllStr`, fuelled by the input length (every step
consumes at least one character). -/
def replaceAllGo (old new : Str) : Nat → Str → Str
  | _, [] => []
  | 0, s => s
  | f + 1, c :: rest =>
    if old ≠ [] ∧ strStarts old (c :: rest) then
      new ++ replaceAllGo old new f ((c :: rest).drop old.length)
    else
      c :: replaceAllGo old new f rest

/-- Embedding of `strings.Replace(s, old, new, -1)` for a non-empty `old`
(the sources only ever replace non-empty substrings). -/
def replaceAllStr (old new : Str) (s : Str) : Str := replaceAllGo old new s.length s

/-- Capture events produced by the regex matcher: a group index paired with
the captured text. -/
abbrev Caps := List (Nat × Str)

/-- Syntax of the (anchored) regular expressions that appear in the
scanner and the code generator.  Alternation and option are
leftmost-first; `star` is greedy and `lazyStar` lazy, both restricted to
progress-making iterations (every starred body in the sources matches at
least one character). -/
inductive RE where
  | eps
  | cls (p : Char → Bool)
  | lit (s : Str)
  | seq (a b : RE)
  | alt (a b : RE)
  | star (a : RE)
  | lazyStar (a : RE)
  | opt (a : RE)
  | grp (n : Nat) (a : RE)
  | eos

/-- Structural size of a regex, used to bound the matcher's fuel. -/
def reSize : RE → Nat
  | .eps => 1
  | .cls _ => 1
  | .lit _ => 1
  | .seq a b => reSize a + reSize b + 1
  | .alt a b => reSize a + reSize b + 1
  | .star a => reSize a + 1
  | .lazyStar a => reSize a + 1
  | .opt a => reSize a + 1
  | .grp _ a => reSize a + 1
  | .eos => 1

/-- Fuelled backtracking matcher.  `mrun fuel re s` returns the list of
`(captures, rest-of-input)` pairs for anchored matches of `re` at the
start of `s`, in backtracking priority order; the first element is the
match Go's `regexp` package reports (leftmost-first submatch semantics). -/
def mrun : Nat → RE → Str → List (Caps × Str)
  | 0, _, _ => []
  | _ + 1, .eps, s => [([], s)]
  | _ + 1, .cls _, [] => []
  | _ + 1, .cls p, c :: rest => if p c then [([], rest)] else []
  | _ + 1, .lit l, s => if strStarts l s then [([], s.drop l.length)] else []
  | f + 1, .seq a b, s =>
      (mrun f a s).flatMap fun ca =>
        (mrun f b ca.2).map fun cb => (ca.1 ++ cb.1, cb.2)
  | f + 1, .alt a b, s => mrun f a s ++ mrun f b s
  | f + 1, .opt a, s => mrun f a s ++ [([], s)]
  | f + 1, .grp n a, s =>
      (mrun f a s).map fun ca => (ca.1 ++ [(n, s.take (s.length - ca.2.length))], ca.2)
  | _ + 1, .eos, s => if s.isEmpty then [([], s)] else []
  | f + 1, .star a, s =>
      (((mrun f a s).filter fun ca => ca.2.length < s.length).flatMap fun ca =>
        (mrun f (.star a) ca.2).map fun cb => (ca.1 ++ cb.1, cb.2)) ++ [([], s)]
  | f + 1, .lazyStar a, s =>
      ([], s) :: (((mrun f a s).filter fun ca => ca.2.length < s.length).flatMap fun ca =>
        (mrun f (.lazyStar a) ca.2).map fun cb => (ca.1 ++ cb.1, cb.2))

/-- Fuel that always suffices for `mrun`: every recursive call decreases
the pair (input length, regex size) lexicographically. -/
def matchFuel (re : RE) (s : Str) : Nat := (s.length + 1) * (reSize re + 1) + 1

/-- Highest-priority anchored match of `re` on `s`, reported as the
captures together with the number of characters consumed (the length of
`matches[0]` in Go). -/
def matchRE (re : RE) (s : Str) : Option (Caps × Nat) :=
  match mrun (matchFuel re s) re s with
  | [] => none
  | ca :: _ => some (ca.1, s.length - ca.2.length)

/-- Submatch number `n` of a capture list; a group that did not
participate yields `""`, exactly like Go's `FindStringSubmatch`.  (No
group in the embedded patterns can capture more than once, so taking the
first recorded event is faithful.) -/
def subm (caps : Caps) (n : Nat) : Str :=
  match caps.find? fun x => x.1 = n with
  | some x => x.2
  | none => []

/-- Right-nested sequencing of a list of regexes. -/
def seqs : List RE → RE
  | [] => .eps
  | [a] => a
  | a :: rest => .seq a (seqs rest)

/-- One-or-more repetition, `x+` = `x x*`. -/
def plusRE (a : RE) : RE := .seq a (.star a)

end Slim

namespace Slim

/-!
## Tokenizer (`src/parser/scanner.go`, `scanner` type)

Token kinds mirror the `tok*` rune constants.  Source positions
(`line`, `column`, `lastToken*`) are diagnostics-only per spec §3 and are
not modelled.
-/

/-- The closed enumeration of token kinds (`tokEOF` … `tokExtend`). -/
inductive TokKind where
  | tokEOF | tokDoctype | tokComment | tokIndent | tokOutdent | tokBlank
  | tokId | tokClass | tokTag | tokText | tokAttribute
  | tokIf | tokElseIf | tokElse | tokEach | tokAssignment
  | tokImport | tokNamedBlock | tokExtend
deriving DecidableEq, Repr

/-- Embedding of the scanner's `token` struct.  The `Data` map is an
association list; `dataGet` returns `""` for a missing key, like a Go map
read. -/
structure Token where
  kind : TokKind
  value : Str
  data : List (String × Str)
deriving DecidableEq, Repr

/-- Go map read `t.Data[k]` (zero value `""` when absent or the map is nil). -/
def dataGet (t : Token) (k : String) : Str :=
  match t.data.find? fun x => x.1 = k with
  | some x => x.2
  | none => []

/-- Regex atom for `\s`. -/
def spaceP : RE := .cls isSpaceGo

/-- Regex atom for `.` (any character but newline). -/
def anyP : RE := .cls fun c => c ≠ '\n'

/-- Regex atom for the class `[\w0-9\-_]` (= `[\w-]`). -/
def wordyP : RE := .cls fun c => isWordCh c || c = '-'

/-- Regex atom for the path class `[0-9a-zA-Z_\-\. \/]`. -/
def pathP : RE := .cls fun c => isWordCh c || c = '-' || c = '.' || c = ' ' || c = '/'

/-- `rdoctype = ^(!!!|doctype)\s*(.*)`. -/
def rdoctype : RE :=
  seqs [.grp 1 (.alt (.lit (chars "!!!")) (.lit (chars "doctype"))), .star spaceP,
        .grp 2 (.star anyP)]

/-- `reach = ^each\s+(\$[\w0-9\-_]*)(?:\s*,\s*(\$[\w0-9\-_]*))?\s+in\s+(.+)$`. -/
def reach : RE :=
  seqs [.lit (chars "each"), plusRE spaceP, .grp 1 (.seq (.lit (chars "$")) (.star wordyP)),
        .opt (seqs [.star spaceP, .lit (chars ","), .star spaceP,
                    .grp 2 (.seq (.lit (chars "$")) (.star wordyP))]),
        plusRE spaceP, .lit (chars "in"), plusRE spaceP, .grp 3 (plusRE anyP), .eos]

/-- `rif = ^if\s*(.+)$`. -/
def rif : RE := seqs [.lit (chars "if"), .star spaceP, .grp 1 (plusRE anyP), .eos]

/-- `relse = ^else\s*`. -/
def relse : RE := seqs [.lit (chars "else"), .star spaceP]

/-- `relsif = ^elsif\s*(.+)$`. -/
def relsif : RE := seqs [.lit (chars "elsif"), .star spaceP, .grp 1 (plusRE anyP), .eos]

/-- `rassignment = ^(\$[\w0-9\-_]*)?\s*=\s*(.+)$`. -/
def rassignment : RE :=
  seqs [.opt (.grp 1 (.seq (.lit (chars "$")) (.star wordyP))), .star spaceP,
        .lit (chars "="), .star spaceP, .grp 2 (plusRE anyP), .eos]

/-- `rcomment = ^\/\/(-)?\s*(.*)$`. -/
def rcomment : RE :=
  seqs [.lit (chars "//"), .opt (.grp 1 (.lit (chars "-"))), .star spaceP,
        .grp 2 (.star anyP), .eos]

/-- `rid = ^#([\w-]+)(?:\s*\?\s*(.*)$)?`. -/
def rid : RE :=
  seqs [.lit (chars "#"), .grp 1 (plusRE wordyP),
        .opt (seqs [.star spaceP, .lit (chars "?"), .star spaceP, .grp 2 (.star anyP), .eos])]

/-- `rclass = ^\.([\w-]+)(?:\s*\?\s*(.*)$)?`. -/
def rclass : RE :=
  seqs [.lit (chars "."), .grp 1 (plusRE wordyP),
        .opt (seqs [.star spaceP, .lit (chars "?"), .star spaceP, .grp 2 (.star anyP), .eos])]

/-- `rattribute = ^\[([\w\-]+)\s*(?:=\s*(\"([^\"\\]*)\"|([^\]]+)))?\](?:\s*\?\s*(.*)$)?`. -/
def rattribute : RE :=
  seqs [.lit (chars "["), .grp 1 (plusRE wordyP), .star spaceP,
        .opt (seqs [.lit (chars "="), .star spaceP,
                    .grp 2 (.alt (seqs [.lit (chars "\""),
                                        .grp 3 (.star (.cls fun c => c ≠ '"' && c ≠ '\\')),
                                        .lit (chars "\"")])
                                 (.grp 4 (plusRE (.cls fun c => c ≠ ']'))))]),
        .lit (chars "]"),
        .opt (seqs [.star spaceP, .lit (chars "?"), .star spaceP, .grp 5 (.star anyP), .eos])]

/-- `rimport = ^import\s+([0-9a-zA-Z_\-\. \/]*)$`. -/
def rimport : RE := seqs [.lit (chars "import"), plusRE spaceP, .grp 1 (.star pathP), .eos]

/-- `rextend = ^extend\s+([0-9a-zA-Z_\-\. \/]*)$`. -/
def rextend : RE := seqs [.lit (chars "extend"), plusRE spaceP, .grp 1 (.star pathP), .eos]

/-- `rblock = ^block\s+(?:(append|prepend)\s+)?([0-9a-zA-Z_\-\. \/]*)$`. -/
def rblock : RE :=
  seqs [.lit (chars "block"), plusRE spaceP,
        .opt (seqs [.grp 1 (.alt (.lit (chars "append")) (.lit (chars "prepend"))), plusRE spaceP]),
        .grp 2 (.star pathP), .eos]

/-- `rtag = ^(\w[-:\w]*)`. -/
def rtag : RE :=
  .grp 1 (.seq (.cls isWordCh) (.star (.cls fun c => c = '-' || c = ':' || isWordCh c)))

/-- `rtext = ^(\|)? ?(.*)$`. -/
def rtext : RE :=
  seqs [.opt (.grp 1 (.lit (chars "|"))), .opt (.cls fun c => c = ' '),
        .grp 2 (.star anyP), .eos]

/-- The scanner's three states (`scnNewLine`, `scnLine`, `scnEOF`). -/
inductive ScanMode where
  | scnNewLine | scnLine | scnEOF
deriving DecidableEq, Repr

/-- Embedding of the `scanner` struct.  `reader` is the not-yet-read part
of the input; `indents` is the indentation stack (each Go entry is a
`QuoteMeta` regex of a literal whitespace prefix, so a literal string
suffices); `stash` is the queued-token FIFO. -/
structure Scanner where
  reader : Str
  indents : List Str
  stash : List Token
  mode : ScanMode
  buffer : Str
  readRaw : Bool
deriving DecidableEq, Repr

/-- Fresh scanner over an input (`newScanner`). -/
def initScanner (input : Str) : Scanner :=
  { reader := input, indents := [], stash := [], mode := .scnNewLine, buffer := [],
    readRaw := false }

/-- Split off the first line including its terminating newline character
(`bufio.Reader.ReadString('\n')`); `none` when no newline remains. -/
def splitAtNL : Str → Option (Str × Str)
  | [] => none
  | c :: t =>
    if c = '\n' then some ([c], t)
    else
      match splitAtNL t with
      | some (l, r) => some (c :: l, r)
      | none => none

/-- Embedding of `scanner.readline`.  A no-op while the buffer is
non-empty.  Otherwise the next newline-terminated line is read and
right-trimmed; at end of input (`io.EOF`, i.e. no newline found) the
state becomes `scnEOF` and any unterminated trailing text is discarded,
exactly as the Go code does. -/
def readline (s : Scanner) : Scanner :=
  if s.buffer ≠ [] then s
  else
    match splitAtNL s.reader with
    | some (line, rest) => { s with reader := rest, buffer := trimRight line, mode := .scnNewLine }
    | none => { s with reader := [], mode := .scnEOF }

/-- Result of `scanner.scanIndent`: a token, no token, or the
"Mismatching indentation" panic. -/
inductive IndentOut where
  | tok (t : Token)
  | noTok
  | mismatch
deriving DecidableEq, Repr

/-- The walk over the indentation stack at the start of `scanIndent`:
each entry is consumed from the front of the buffer while the entry's
(unanchored) literal regex finds a match anywhere in the buffer; the
result is the number of matched entries and the remaining buffer. -/
def consumeIndents : List Str → Str → Nat × Str
  | [], buf => (0, buf)
  | e :: rest, buf =>
    if strOccurs e buf then
      let r := consumeIndents rest (buf.drop e.length)
      (r.1 + 1, r.2)
    else (0, buf)

/-- Embedding of `scanner.scanIndent`. -/
def scanIndent (s : Scanner) : IndentOut × Scanner :=
  if s.buffer = [] then (.tok ⟨.tokBlank, [], []⟩, s)
  else
    let r := consumeIndents s.indents s.buffer
    let buf1 := r.2
    let remaining := s.indents.length - r.1
    let newIndent := buf1.takeWhile isSpaceGo
    if newIndent ≠ [] ∧ remaining = 0 then
      (.tok ⟨.tokIndent, newIndent, []⟩,
       { s with indents := s.indents ++ [newIndent], buffer := buf1.drop newIndent.length })
    else if newIndent = [] ∧ remaining ≠ 0 then
      (.tok ⟨.tokOutdent, [], []⟩,
       { s with indents := s.indents.take r.1, buffer := buf1,
                stash := s.stash ++ List.replicate (remaining - 1) ⟨.tokOutdent, [], []⟩ })
    else if newIndent ≠ [] ∧ remaining ≠ 0 then
      (.mismatch, s)
    else
      (.noTok, { s with buffer := buf1 })

/-- Embedding of `scanner.scanDoctype` on the current buffer: a matched
token together with the number of consumed characters. -/
def scanDoctype (buf : Str) : Option (Token × Nat) :=
  match matchRE rdoctype buf with
  | some (caps, n) =>
    let m2 := subm caps 2
    some (⟨.tokDoctype, if m2 = [] then chars "html" else m2, []⟩, n)
  | none => none

/-- Embedding of `scanner.scanCondition` (tries `rif`, `relsif`, `relse`). -/
def scanCondition (buf : Str) : Option (Token × Nat) :=
  match matchRE rif buf with
  | some (caps, n) => some (⟨.tokIf, subm caps 1, []⟩, n)
  | none =>
    match matchRE relsif buf with
    | some (caps, n) => some (⟨.tokElseIf, subm caps 1, []⟩, n)
    | none =>
      match matchRE relse buf with
      | some (_, n) => some (⟨.tokElse, [], []⟩, n)
      | none => none

/-- Embedding of `scanner.scanEach`: the loop variables are stored under
the `Data` keys `X` and `Y`. -/
def scanEach (buf : Str) : Option (Token × Nat) :=
  match matchRE reach buf with
  | some (caps, n) =>
    some (⟨.tokEach, subm caps 3, [("X", subm caps 1), ("Y", subm caps 2)]⟩, n)
  | none => none

/-- Embedding of `scanner.scanAssignment`: the target variable is stored
under the `Data` key `X`. -/
def scanAssignment (buf : Str) : Option (Token × Nat) :=
  match matchRE rassignment buf with
  | some (caps, n) =>
    some (⟨.tokAssignment, subm caps 2, [("X", subm caps 1)]⟩, n)
  | none => none

/-- Embedding of `scanner.scanComment`. -/
def scanComment (buf : Str) : Option (Token × Nat) :=
  match matchRE rcomment buf with
  | some (caps, n) =>
    let mode := if subm caps 1 ≠ [] then "silent" else "embed"
    some (⟨.tokComment, subm caps 2, [("Mode", chars mode)]⟩, n)
  | none => none

/-- Embedding of `scanner.scanId`. -/
def scanId (buf : Str) : Option (Token × Nat) :=
  match matchRE rid buf with
  | some (caps, n) => some (⟨.tokId, subm caps 1, [("Condition", subm caps 2)]⟩, n)
  | none => none

/-- Embedding of `scanner.scanClass`. -/
def scanClass (buf : Str) : Option (Token × Nat) :=
  match matchRE rclass buf with
  | some (caps, n) => some (⟨.tokClass, subm caps 1, [("Condition", subm caps 2)]⟩, n)
  | none => none

/-- Embedding of `scanner.scanAttribute`. -/
def scanAttribute (buf : Str) : Option (Token × Nat) :=
  match matchRE rattribute buf with
  | some (caps, n) =>
    if subm caps 3 ≠ [] ∨ subm caps 2 = [] then
      some (⟨.tokAttribute, subm caps 1,
             [("Content", subm caps 3), ("Mode", chars "raw"), ("Condition", subm caps 5)]⟩, n)
    else
      some (⟨.tokAttribute, subm caps 1,
             [("Content", subm caps 4), ("Mode", chars "expression"), ("Condition", subm caps 5)]⟩, n)
  | none => none

/-- Embedding of `scanner.scanImport`. -/
def scanImport (buf : Str) : Option (Token × Nat) :=
  match matchRE rimport buf with
  | some (caps, n) => some (⟨.tokImport, subm caps 1, []⟩, n)
  | none => none

/-- Embedding of `scanner.scanExtend`. -/
def scanExtend (buf : Str) : Option (Token × Nat) :=
  match matchRE rextend buf with
  | some (caps, n) => some (⟨.tokExtend, subm caps 1, []⟩, n)
  | none => none

/-- Embedding of `scanner.scanBlock` (named blocks). -/
def scanBlock (buf : Str) : Option (Token × Nat) :=
  match matchRE rblock buf with
  | some (caps, n) => some (⟨.tokNamedBlock, subm caps 2, [("Modifier", subm caps 1)]⟩, n)
  | none => none

/-- Embedding of `scanner.scanTag`. -/
def scanTag (buf : Str) : Option (Token × Nat) :=
  match matchRE rtag buf with
  | some (caps, n) => some (⟨.tokTag, subm caps 1, []⟩, n)
  | none => none

/-- Embedding of `scanner.scanText` (always matches). -/
def scanText (buf : Str) : Option (Token × Nat) :=
  match matchRE rtext buf with
  | some (caps, n) =>
    let mode := if subm caps 1 = chars "|" then "piped" else "inline"
    some (⟨.tokText, subm caps 2, [("Mode", chars mode)]⟩, n)
  | none => none

/-- The `scnLine` cascade of `scanner.Next`, in source order; the first
scanner that matches wins.  None of these touch the indentation stack or
the stash. -/
def scanLine (buf : Str) : Option (Token × Nat) :=
  match scanDoctype buf with
  | some r => some r
  | none =>
    match scanCondition buf with
    | some r => some r
    | none =>
      match scanEach buf with
      | some r => some r
      | none =>
        match scanImport buf with
        | some r => some r
        | none =>
          match scanExtend buf with
          | some r => some r
          | none =>
            match scanBlock buf with
            | some r => some r
            | none =>
              match scanAssignment buf with
              | some r => some r
              | none =>
                match scanTag buf with
                | some r => some r
                | none =>
                  match scanId buf with
                  | some r => some r
                  | none =>
                    match scanClass buf with
                    | some r => some r
                    | none =>
                      match scanAttribute buf with
                      | some r => some r
                      | none =>
                        match scanComment buf with
                        | some r => some r
                        | none =>
                          scanText buf

/-- Embedding of `scanner.scanRaw`, fuelled by the number of loop
iterations (each iteration consumes input).  `none` models either the
propagated indentation-mismatch panic or fuel exhaustion. -/
def scanRaw : Nat → Scanner → Str → Int → Option (Token × Scanner)
  | 0, _, _, _ => none
  | f + 1, s, result, level =>
    let s := readline s
    match s.mode with
    | .scnEOF => some (⟨.tokText, result, [("Mode", chars "raw")]⟩, s)
    | .scnNewLine =>
      let s := { s with mode := ScanMode.scnLine }
      match scanIndent s with
      | (.mismatch, _) => none
      | (.noTok, s1) => scanRaw f s1 result level
      | (.tok t, s1) =>
        if t.kind = .tokIndent then
          scanRaw f s1 result (level + 1)
        else if t.kind = .tokOutdent then
          let level := level - 1
          if level < 0 then
            let s2 := { s1 with stash := s1.stash ++ [⟨.tokOutdent, [], []⟩] }
            let result :=
              if result ≠ [] ∧ result.getLast? = some '\n' then result.dropLast else result
            some (⟨.tokText, result, [("Mode", chars "raw")]⟩, s2)
          else scanRaw f s1 result level
        else
          scanRaw f s1 (result ++ chars "\n") level
    | .scnLine =>
      let result := (if result ≠ [] then result ++ chars "\n" else result) ++
        List.replicate level.toNat '\t' ++ s.buffer
      scanRaw f { s with buffer := [] } result level

/-- Embedding of `scanner.Next`, fuelled by the recursion in the
`scnNewLine` branch (each recursion consumes at most one line).  `none`
models the indentation-mismatch panic or fuel exhaustion. -/
def next : Nat → Scanner → Option (Token × Scanner)
  | 0, _ => none
  | f + 1, s =>
    if s.readRaw then scanRaw f { s with readRaw := false } [] 0
    else
      let s := readline s
      match s.stash with
      | t :: rest => some (t, { s with stash := rest })
      | [] =>
        match s.mode with
        | .scnEOF =>
          if s.indents.length ≠ 0 then
            some (⟨.tokOutdent, [], []⟩, { s with indents := s.indents.dropLast })
          else
            some (⟨.tokEOF, [], []⟩, s)
        | .scnNewLine =>
          let s := { s with mode := ScanMode.scnLine }
          match scanIndent s with
          | (.tok t, s1) => some (t, s1)
          | (.mismatch, _) => none
          | (.noTok, s1) => next f s1
        | .scnLine =>
          match scanLine s.buffer with
          | some (t, n) => some (t, { s with buffer := s.buffer.drop n })
          | none => none

/-- The token stream obtained by calling `Next` repeatedly, up to and
including the end-of-input token. -/
def runScanner : Nat → Scanner → List Token
  | 0, _ => []
  | f + 1, s =>
    match next (f + 1) s with
    | none => []
    | some (t, s1) => if t.kind = .tokEOF then [t] else t :: runScanner f s1

end Slim

namespace Slim

/-!
## AST and parser (`src/parser/parser.go`)

The node model follows the structs of the nodes file that pairs with
`parser.go` (the one whose `newDoctype` takes a single argument and whose
`Text` carries an `IsRaw` flag).  A `*Block` field that may be nil is an
`Option (List Node)`.  The `NamedBlock` variant exists in the node type —
it is a `Noder` in Go and could in principle be placed in a tree — which
is exactly what claim C9 is about.

Aliasing note: in Go, `parseNamedBlock` with the Default modifier splices
`&block.Block` — the very struct registered in the parser's name-keyed
map — so the mutations performed by an extending child's `Parse()` become
visible at that splice site of the memoized parent tree.  The pure
embedding reproduces this by resolving the override (`ov`) at splice
time, which yields the same tree for a child/parent pair; for chains the
recursion below mirrors Go's order of operations (a child's overrides are
merged into its immediate parent's entries only, and the tree returned is
the chain root's). -/

/-- Named-block modifiers (`NamedBlockDefault/Append/Prepend`). -/
inductive NBMod where
  | dflt | append | prepend
deriving DecidableEq, Repr

/-- Embedding of the `Attribute` struct as `parser.go` populates it
positionally: name, value, raw flag, guard condition. -/
structure AttrN where
  name : Str
  value : Str
  isRaw : Bool
  condition : Str
deriving DecidableEq, Repr

/-- The AST node model (tagged union over the `Noder` implementations). -/
inductive Node where
  | block (children : List Node)
  | doctype (value : Str)
  | comment (value : Str) (blk : Option (List Node)) (silent : Bool)
  | text (value : Str) (isRaw : Bool)
  | tag (name : Str) (attrs : List AttrN) (blk : Option (List Node))
  | cond (expr : Str) (pos : Option (List Node)) (neg : Option (List Node))
  | each (key : Str) (value : Str) (expr : Str) (blk : Option (List Node))
  | assign (varName : Str) (expr : Str)
  | namedBlock (name : Str) (modifier : NBMod) (children : List Node)

mutual

/-- Number of `NamedBlock` nodes in a tree. -/
def countNB : Node → Nat
  | .block cs => countNBL cs
  | .doctype _ => 0
  | .comment _ b _ => countNBO b
  | .text _ _ => 0
  | .tag _ _ b => countNBO b
  | .cond _ p n => countNBO p + countNBO n
  | .each _ _ _ b => countNBO b
  | .assign _ _ => 0
  | .namedBlock _ _ cs => countNBL cs + 1

/-- Number of `NamedBlock` nodes in a child list. -/
def countNBL : List Node → Nat
  | [] => 0
  | c :: t => countNB c + countNBL t

/-- Number of `NamedBlock` nodes under an optional block. -/
def countNBO : Option (List Node) → Nat
  | none => 0
  | some cs => countNBL cs

end

/-- A registered named block: its modifier and its parsed children
(the `NamedBlock` values stored in `Parser.namedBlocks`). -/
structure NBEntry where
  modifier : NBMod
  children : List Node

/-- The parser's name-keyed side map of named blocks. -/
abbrev Entries := List (Str × NBEntry)

/-- Overrides supplied by an extending child (lookup into its entries). -/
abbrev Ov := Str → Option NBEntry

/-- Lookup in an entries map. -/
def entLookup (ents : Entries) : Ov := fun name =>
  (ents.find? fun x => x.1 = name).map fun x => x.2

/-- The empty override set (a parser that nobody extends). -/
def noOv : Ov := fun _ => none

/-- Embedding of the `prev.push` loop of `Parser.Parse` for the Append
modifier: `for i := 0; i < len(ours.Children); i++ { prev.push(...) }`. -/
def pushAll (prev ours : List Node) : List Node :=
  ours.foldl (fun acc c => acc ++ [c]) prev

/-- Embedding of the `prev.unshift` loop of `Parser.Parse` for the
Prepend modifier: `for i := len(ours.Children)-1; i >= 0; i-- {
prev.unshift(...) }`. -/
def unshiftAll (prev ours : List Node) : List Node :=
  ours.reverse.foldl (fun acc c => c :: acc) prev

/-- The per-named-block body of the inheritance loop in `Parser.Parse`:
given the parent's registered children `prev` and the child's override
(if any), produce the merged children.  The `default:` arm of the Go
switch replaces the slice outright. -/
def mergeNamedBlock (prev : List Node) (ours : Option NBEntry) : List Node :=
  match ours with
  | none => prev
  | some e =>
    match e.modifier with
    | .append => pushAll prev e.children
    | .prepend => unshiftAll prev e.children
    | .dflt => e.children

/-- Parser state: the remaining token stream (head = `p.token`), the
name-keyed side map `p.namedBlocks`, and the `extend` parent if one was
seen. -/
structure PSt where
  toks : List Token
  named : Entries
  parent : Option Str

/-- The environment resolving `import`/`extend` targets to their token
streams (file reading is the spec's out-of-scope collaborator; a missing
file models the read panic). -/
abbrev FileEnv := Str → Option (List Token)

/-- Embedding of `Parser.expectToken`: panic unless the current token has
the requested kind, then advance. -/
def expectTok (k : TokKind) (p : PSt) : Except String (Token × PSt) :=
  match p.toks with
  | t :: rest =>
    if t.kind = k then .ok (t, { p with toks := rest })
    else .error "Expect token kind mismatch"
  | [] => .error "nil token"


/-- Embedding of `Parser.parseText` (non-recursive, outside the mutual
block). -/
def parseTextF (p : PSt) : Except String (Node × PSt) := do
  let (t, p) ← expectTok .tokText p
  .ok (.text t.value (dataGet t "Mode" = chars "raw"), p)

mutual

/-- Embedding of `Parser.parseToken` (dispatch on the current token).
Token kinds with no case in the Go switch fall through to the
`Unexpected token` panic. -/
def parseToken (env : FileEnv) (ov : Ov) : Nat → PSt → Except String (Node × PSt)
  | 0, _ => .error "fuel"
  | f + 1, p =>
    match p.toks.head? with
    | none => .error "nil token"
    | some t =>
      match t.kind with
      | .tokIndent => do
        let (r, p) ← parseBlockF env ov false f p
        .ok (.block r.1, p)
      | .tokDoctype => do
        let (t, p) ← expectTok .tokDoctype p
        .ok (.doctype t.value, p)
      | .tokComment => parseCommentF env ov f p
      | .tokTag => parseTagF env ov f p
      | .tokText => do
        let (n, p) ← parseTextF p
        .ok (n, p)
      | .tokAssignment => do
        let (t, p) ← expectTok .tokAssignment p
        .ok (.assign (dataGet t "Variable") t.value, p)
      | .tokIf => parseConditionF env ov f p
      | .tokEach => parseEachF env ov f p
      | .tokNamedBlock => parseNamedBlockF env ov f p
      | .tokImport => parseImportF env f p
      | .tokExtend => parseExtendF env p
      | _ => .error "Unexpected token"

/-- Embedding of `Parser.parseBlock`.  `isTag` records whether the
syntactic parent passed in Go is a `*Tag`; bare id/class/attribute tokens
are collected for that tag (in token order) and are a fatal error
otherwise.  Returns the block's children and the collected attributes. -/
def parseBlockF (env : FileEnv) (ov : Ov) (isTag : Bool) :
    Nat → PSt → Except String ((List Node × List AttrN) × PSt)
  | 0, _ => .error "fuel"
  | f + 1, p => do
    let (_, p) ← expectTok .tokIndent p
    parseBlockLoop env ov isTag f p [] []

/-- The accumulation loop of `Parser.parseBlock`. -/
def parseBlockLoop (env : FileEnv) (ov : Ov) (isTag : Bool) :
    Nat → PSt → List Node → List AttrN → Except String ((List Node × List AttrN) × PSt)
  | 0, _, _, _ => .error "fuel"
  | f + 1, p, acc, attrs =>
    match p.toks.head? with
    | none => .error "nil token"
    | some t =>
      if t.kind = .tokEOF ∨ t.kind = .tokOutdent then do
        let (_, p) ← expectTok .tokOutdent p
        .ok ((acc, attrs), p)
      else if t.kind = .tokBlank then
        parseBlockLoop env ov isTag f { p with toks := p.toks.tail } acc attrs
      else if t.kind = .tokId ∨ t.kind = .tokClass ∨ t.kind = .tokAttribute then
        if ¬isTag then
          .error "Conditional attributes must be placed immediately within a parent tag."
        else do
          let (attr, p) ← expectTok t.kind p
          let cond := dataGet attr "Condition"
          let a : AttrN :=
            match attr.kind with
            | .tokId => ⟨chars "id", attr.value, true, cond⟩
            | .tokClass => ⟨chars "class", attr.value, true, cond⟩
            | _ => ⟨attr.value, dataGet attr "Content", dataGet attr "Mode" = chars "raw", cond⟩
          parseBlockLoop env ov isTag f p acc (attrs ++ [a])
      else do
        let (n, p) ← parseToken env ov f p
        parseBlockLoop env ov isTag f p (acc ++ [n]) attrs

/-- Embedding of `Parser.parseComment`. -/
def parseCommentF (env : FileEnv) (ov : Ov) : Nat → PSt → Except String (Node × PSt)
  | 0, _ => .error "fuel"
  | f + 1, p => do
    let (t, p) ← expectTok .tokComment p
    let silent := dataGet t "Mode" = chars "silent"
    match p.toks.head? with
    | some u =>
      if u.kind = .tokIndent then do
        let (r, p) ← parseBlockF env ov false f p
        .ok (.comment t.value (some r.1) silent, p)
      else .ok (.comment t.value none silent, p)
    | none => .ok (.comment t.value none silent, p)

/-- Embedding of `Parser.parseTag` (the tag token itself). -/
def parseTagF (env : FileEnv) (ov : Ov) : Nat → PSt → Except String (Node × PSt)
  | 0, _ => .error "fuel"
  | f + 1, p => do
    let (t, p) ← expectTok .tokTag p
    parseTagLoop env ov t.value f p [] none

/-- The `readmore` loop of `Parser.parseTag`. -/
def parseTagLoop (env : FileEnv) (ov : Ov) (name : Str) :
    Nat → PSt → List AttrN → Option (List Node) → Except String (Node × PSt)
  | 0, _, _, _ => .error "fuel"
  | f + 1, p, attrs, blk =>
    match p.toks.head? with
    | none => .ok (.tag name attrs blk, p)
    | some t =>
      match t.kind with
      | .tokIndent => do
        -- `tag.IsRawText()` toggles the scanner's raw mode; that affects
        -- token production only and is invisible to a parser over a
        -- token list.
        let (r, p) ← parseBlockF env ov true f p
        let blk :=
          match blk with
          | none => some r.1
          | some cs => some (cs ++ r.1)
        .ok (.tag name (attrs ++ r.2) blk, p)
      | .tokId => do
        let (idt, p) ← expectTok .tokId p
        if (dataGet idt "Condition").length > 0 then
          .error "Conditional attributes(id) must be placed in a block within a tag."
        else
          parseTagLoop env ov name f p (attrs ++ [⟨chars "id", idt.value, true, []⟩]) blk
      | .tokClass => do
        let (kt, p) ← expectTok .tokClass p
        if (dataGet kt "Condition").length > 0 then
          .error "Conditional attributes(class) must be placed in a block within a tag."
        else
          parseTagLoop env ov name f p (attrs ++ [⟨chars "class", kt.value, true, []⟩]) blk
      | .tokAttribute => do
        let (att, p) ← expectTok .tokAttribute p
        if (dataGet att "Condition").length > 0 then
          .error "Conditional attributes must be placed in a block within a tag."
        else
          parseTagLoop env ov name f p
            (attrs ++ [⟨att.value, dataGet att "Content", dataGet att "Mode" = chars "raw", []⟩]) blk
      | .tokText =>
        if dataGet t "Mode" ≠ chars "piped" then do
          let (txt, p) ← parseTextF p
          parseTagLoop env ov name f p attrs (some (txt :: blk.getD []))
        else .ok (.tag name attrs blk, p)
      | _ => .ok (.tag name attrs blk, p)

/-- Embedding of `Parser.parseCondition` (the `if` token). -/
def parseConditionF (env : FileEnv) (ov : Ov) : Nat → PSt → Except String (Node × PSt)
  | 0, _ => .error "fuel"
  | f + 1, p => do
    let (t, p) ← expectTok .tokIf p
    parseCondLoop env ov t.value f p none none

/-- The `readmore` loop of `Parser.parseCondition`.  Note the faithful
`elsif` handling: after consuming a `tokElseIf` the Go code demands that
the *next* token again be `tokElseIf` and then calls `parseCondition`,
which expects `tokIf` — so an `elsif` chain always panics. -/
def parseCondLoop (env : FileEnv) (ov : Ov) (expr : Str) :
    Nat → PSt → Option (List Node) → Option (List Node) → Except String (Node × PSt)
  | 0, _, _, _ => .error "fuel"
  | f + 1, p, pos, neg =>
    match p.toks.head? with
    | none => .ok (.cond expr pos neg, p)
    | some t =>
      match t.kind with
      | .tokIndent => do
        let (r, p) ← parseBlockF env ov false f p
        parseCondLoop env ov expr f p (some r.1) neg
      | .tokElseIf => do
        let (_, p) ← expectTok .tokElseIf p
        match p.toks.head? with
        | some u =>
          if u.kind ≠ .tokElseIf then .error "Unexpected token!"
          else do
            let (c, p) ← parseConditionF env ov f p
            parseCondLoop env ov expr f p pos (some [c])
        | none => .error "Unexpected token!"
      | .tokElse => do
        let (_, p) ← expectTok .tokElse p
        match p.toks.head? with
        | some u =>
          if u.kind = .tokIf then do
            let (c, p) ← parseConditionF env ov f p
            parseCondLoop env ov expr f p pos (some [c])
          else if u.kind = .tokIndent then do
            let (r, p) ← parseBlockF env ov false f p
            parseCondLoop env ov expr f p pos (some r.1)
          else .error "Unexpected token!"
        | none => .error "Unexpected token!"
      | _ => .ok (.cond expr pos neg, p)

/-- Embedding of `Parser.parseEach`.  As with assignments, `Parser`
reads the `Data` keys `Key`/`Value` while this scanner stores `X`/`Y`. -/
def parseEachF (env : FileEnv) (ov : Ov) : Nat → PSt → Except String (Node × PSt)
  | 0, _ => .error "fuel"
  | f + 1, p => do
    let (t, p) ← expectTok .tokEach p
    match p.toks.head? with
    | some u =>
      if u.kind = .tokIndent then do
        let (r, p) ← parseBlockF env ov false f p
        .ok (.each (dataGet t "Key") (dataGet t "Value") t.value (some r.1), p)
      else .ok (.each (dataGet t "Key") (dataGet t "Value") t.value none, p)
    | none => .ok (.each (dataGet t "Key") (dataGet t "Value") t.value none, p)

/-- Embedding of `Parser.parseNamedBlock`.  The `NamedBlock` itself goes
only into the side map; the tree receives its embedded plain `Block`
(Default modifier, with any extender's override merged in — this is where
the aliasing of `&block.Block` with the map entry becomes visible) or a
fresh empty `Block` (Append/Prepend). -/
def parseNamedBlockF (env : FileEnv) (ov : Ov) : Nat → PSt → Except String (Node × PSt)
  | 0, _ => .error "fuel"
  | f + 1, p => do
    let (t, p) ← expectTok .tokNamedBlock p
    if (entLookup p.named t.value).isSome then
      .error "Multiple definitions of named blocks are not permitted."
    else do
      let modifier :=
        if dataGet t "Modifier" = chars "append" then NBMod.append
        else if dataGet t "Modifier" = chars "prepend" then NBMod.prepend
        else NBMod.dflt
      let (children, p) ←
        match p.toks.head? with
        | some u =>
          if u.kind = .tokIndent then do
            let (r, p) ← parseBlockF env ov false f p
            pure (r.1, p)
          else pure ([], p)
        | none => pure (([] : List Node), p)
      let p := { p with named := p.named ++ [(t.value, ⟨modifier, children⟩)] }
      if modifier = .dflt then
        .ok (.block (mergeNamedBlock children (ov t.value)), p)
      else
        .ok (.block [], p)

/-- Embedding of `Parser.parseImport`: fully parse the target file (its
own `Parse()`, inheritance included) and splice the resulting block. -/
def parseImportF (env : FileEnv) : Nat → PSt → Except String (Node × PSt)
  | 0, _ => .error "fuel"
  | f + 1, p => do
    let (t, p) ← expectTok .tokImport p
    match env t.value with
    | none => .error "Failed to import"
    | some toks => do
      let tree ← parseTopF env f toks
      .ok (.block tree, p)

/-- Embedding of `Parser.parseExtend`: at most one parent per file; the
site yields an empty placeholder block.  (Go parses the parent eagerly
here and memoizes it; the pure embedding performs that parse when the
result is assembled, which is observationally identical for an
all-or-nothing compile.) -/
def parseExtendF (env : FileEnv) (p : PSt) : Except String (Node × PSt) :=
  if p.parent.isSome then .error "Unable to extend multiple parent templates."
  else
    match expectTok .tokExtend p with
    | .error e => .error e
    | .ok (t, p) =>
      match env t.value with
      | none => .error "Failed to extend"
      | some _ => .ok (.block [], { p with parent := some t.value })

/-- The top-level accumulation loop of `Parser.Parse` (before inheritance
resolution): collect constructs, skipping blanks, until end of input. -/
def parseUnitLoop (env : FileEnv) (ov : Ov) :
    Nat → PSt → List Node → Except String (List Node × Entries × Option Str)
  | 0, _, _ => .error "fuel"
  | f + 1, p, acc =>
    match p.toks.head? with
    | none => .ok (acc, p.named, p.parent)
    | some t =>
      if t.kind = .tokEOF then .ok (acc, p.named, p.parent)
      else if t.kind = .tokBlank then
        parseUnitLoop env ov f { p with toks := p.toks.tail } acc
      else do
        let (n, p) ← parseToken env ov f p
        parseUnitLoop env ov f p (acc ++ [n])

/-- Parse one source unit with the given extender overrides: its own
top-level children, its registered named blocks, and its `extend` parent
if any. -/
def parseUnitF (env : FileEnv) (ov : Ov) :
    Nat → List Token → Except String (List Node × Entries × Option Str)
  | 0, _ => .error "fuel"
  | f + 1, toks => parseUnitLoop env ov f ⟨toks, [], none⟩ []

/-- Resolve an extend chain: parse the named parent file with the
child's overrides; if that parent itself extends, recurse with the
parent's *own* (unmerged) entries — Go's parent was parsed and memoized
before the child's merge mutated its entry structs, so grandparents see
the parent's original entries. -/
def parseWithF (env : FileEnv) : Nat → Str → Ov → Except String (List Node)
  | 0, _, _ => .error "fuel"
  | f + 1, name, ov =>
    match env name with
    | none => .error "Failed to extend"
    | some toks => do
      let (tree, ents, par) ← parseUnitF env ov f toks
      match par with
      | none => .ok tree
      | some pname => parseWithF env f pname (entLookup ents)

/-- Embedding of `Parser.Parse` for a root compilation unit: parse the
unit; if it recorded a parent, the result is the parent chain's tree with
this unit's named-block overrides merged in, otherwise its own block. -/
def parseTopF (env : FileEnv) : Nat → List Token → Except String (List Node)
  | 0, _ => .error "fuel"
  | f + 1, toks => do
    let (tree, ents, par) ← parseUnitF env noOv f toks
    match par with
    | none => .ok tree
    | some pname => parseWithF env f pname (entLookup ents)

end


end Slim

namespace Slim

/-!
## Code generator (`src/parser/scanner.go`, second half: package `slim`)

The generator walks the AST writing into one buffer.  Embedded
expressions are parsed by Go's `go/parser.ParseExpr`, an external library
call; it is modelled as a function parameter `pe` producing the
expression AST (`GoExpr` mirrors the `go/ast` node kinds the visitor
handles).  The enumeration order of the Go map `attribs` in `visitTag`
is not specified by Go (the runtime randomizes it per `range`); it is
modelled as the parameter `ordf`, which a single run of the Go program
instantiates with some permutation.
-/

/-- The binary operators the expression visitor handles (`go/token`
operator constants); `otherB` stands for any other operator, which hits
the `default: panic` arm. -/
inductive BinOp where
  | add | sub | mul | quo | rem | land | lor | eql | neq | lss | gtr | leq | geq | otherB
deriving DecidableEq, Repr

/-- The unary operators the expression visitor handles. -/
inductive UnOp where
  | uminus | uplus | unot | otherU
deriving DecidableEq, Repr

/-- Mirror of the `go/ast` expression nodes used by `visitExpression`.
`unsupported` stands for any other `go/ast` node, which hits the
`Unable to parse expression. Unsupported:` panic. -/
inductive GoExpr where
  | binary (op : BinOp) (x y : GoExpr)
  | unary (op : UnOp) (x : GoExpr)
  | paren (x : GoExpr)
  | lit (value : Str)
  | ident (name : Str)
  | selector (x : GoExpr) (sel : Str)
  | call (fn : GoExpr) (args : List GoExpr)
  | unsupported (ty : String)

/-- The fixed `builtinFunctions` table of the `slim` package. -/
def builtinFunctions : List Str :=
  [chars "len", chars "print", chars "printf", chars "println", chars "urlquery",
   chars "js", chars "json", chars "index", chars "html", chars "unescaped"]

/-- The `doctypes` lookup table of the parser package (the variant paired
with `parser.go`, whose `newDoctype` takes one argument). -/
def doctypes : List (String × String) :=
  [("5", "<!DOCTYPE html>"),
   ("default", "<!DOCTYPE html>"),
   ("xml", "<?xml version=\"1.0\" encoding=\"utf-8\" ?>"),
   ("transitional", "<!DOCTYPE html PUBLIC \"-//W3C//DTD XHTML 1.0 Transitional//EN\" \"http://www.w3.org/TR/xhtml1/DTD/xhtml1-transitional.dtd\">"),
   ("strict", "<!DOCTYPE html PUBLIC \"-//W3C//DTD XHTML 1.0 Strict//EN\" \"http://www.w3.org/TR/xhtml1/DTD/xhtml1-strict.dtd\">"),
   ("frameset", "<!DOCTYPE html PUBLIC \"-//W3C//DTD XHTML 1.0 Frameset//EN\" \"http://www.w3.org/TR/xhtml1/DTD/xhtml1-frameset.dtd\">"),
   ("1.1", "<!DOCTYPE html PUBLIC \"-//W3C//DTD XHTML 1.1//EN\" \"http://www.w3.org/TR/xhtml11/DTD/xhtml11.dtd\">"),
   ("basic", "<!DOCTYPE html PUBLIC \"-//W3C//DTD XHTML Basic 1.1//EN\" \"http://www.w3.org/TR/xhtml-basic/xhtml-basic11.dtd\">"),
   ("mobile", "<!DOCTYPE html PUBLIC \"-//WAPFORUM//DTD XHTML Mobile 1.2//EN\" \"http://www.openmobilealliance.org/tech/DTD/xhtml-mobile12.dtd\">")]

/-- Embedding of `Doctype.String` (same variant): the table string when
the shorthand is a key, otherwise `<!DOCTYPE ` + shorthand + `>`. -/
def doctypeString (v : Str) : Str :=
  match doctypes.find? fun x => chars x.1 = v with
  | some x => chars x.2
  | none => chars "<!DOCTYPE " ++ v ++ chars ">"

/-- The `_AUTOCLOSES` set of the nodes file that defines `IsAutoclose`,
the predicate `Compiler.visitTag` consults. -/
def autocloseTags : List Str :=
  [chars "base", chars "basefont", chars "bgsound", chars "link", chars "meta",
   chars "area", chars "br", chars "embed", chars "img", chars "keygen",
   chars "wbr", chars "input", chars "menuitem", chars "param", chars "source",
   chars "track", chars "hr", chars "col", chars "frame"]

/-- Embedding of `Tag.IsAutoclose`. -/
def isAutoclose (name : Str) : Bool := autocloseTags.contains name

/-- Embedding of `Block.CanInline`: true for an empty child list or one
whose members are all non-raw `Text` nodes. -/
def canInline (cs : List Node) : Bool :=
  cs.isEmpty || cs.all fun n =>
    match n with
    | .text _ raw => !raw
    | _ => false

/-- Decimal representation of a natural number (`strconv.Itoa` for the
non-negative arguments that occur). -/
def digitCh (d : Nat) : Char :=
  match d with
  | 0 => '0' | 1 => '1' | 2 => '2' | 3 => '3' | 4 => '4'
  | 5 => '5' | 6 => '6' | 7 => '7' | 8 => '8' | 9 => '9'
  | _ => '*'

/-- Worker producing the decimal digits of `n` in front of `acc`,
fuelled (fuel `n` suffices since the argument quotients down). -/
def decReprGo : Nat → Nat → Str → Str
  | 0, _, acc => acc
  | _ + 1, 0, acc => acc
  | f + 1, n, acc => decReprGo f (n / 10) (digitCh (n % 10) :: acc)

/-- Decimal digits of `n`, most significant first, as characters. -/
def decRepr (n : Nat) : Str :=
  if n = 0 then chars "0" else decReprGo n n []

/-- The name `tempvar` returns for counter value `i`. -/
def tempName (i : Nat) : Str := chars "$__slim_" ++ decRepr i

/-- Compiler options (`Options`): the pretty-print and line-number
toggles.  (`LineNumbers` is declared but never read by the generator.) -/
structure COpts where
  prettyPrint : Bool
  lineNumbers : Bool
deriving DecidableEq, Repr

/-- Generator state: indentation level, output buffer and the temporary
counter.  `tvLog` is a ghost log of every name `tempvar` has returned, in
order; it exists only so that freshness of temporaries can be stated. -/
structure CState where
  indentLevel : Nat
  buffer : Str
  tempvarIndex : Nat
  tvLog : List Str
deriving DecidableEq, Repr

/-- The state of a freshly constructed compiler. -/
def initC : CState := ⟨0, [], 0, []⟩

/-- Embedding of `Compiler.write`. -/
def write (c : CState) (v : Str) : CState := { c with buffer := c.buffer ++ v }

/-- Embedding of `Compiler.indent`. -/
def cindent (opts : COpts) (offset : Nat) (newline : Bool) (c : CState) : CState :=
  if ¬opts.prettyPrint then c
  else
    let c := if newline && !c.buffer.isEmpty then write c (chars "\n") else c
    write c (List.replicate (c.indentLevel + offset) '\t')

/-- Embedding of `Compiler.tempvar`: increment the counter and return
`$__slim_<counter>`. -/
def tempvar (c : CState) : Str × CState :=
  let i := c.tempvarIndex + 1
  let name := tempName i
  (name, { c with tempvarIndex := i, tvLog := c.tvLog ++ [name] })

/-- Embedding of `Compiler.escape`: backslashes, then double quotes. -/
def escapeStr (s : Str) : Str :=
  replaceAllStr (chars "\"") (chars "\\\"") (replaceAllStr (chars "\\") (chars "\\\\") s)

/-- Embedding of the local `pop` of `visitExpression`: `""` on an empty
stack. -/
def popS : List Str → Str × List Str
  | [] => ([], [])
  | v :: rest => (v, rest)

/-- The helper text `visitExpression` writes for each binary operator
(`none` models the `default: panic("Unexpected operator!")` arm). -/
def binOpText : BinOp → Option Str
  | .add => some (chars "__slim_add ")
  | .sub => some (chars "__slim_sub ")
  | .mul => some (chars "__slim_mul ")
  | .quo => some (chars "__slim_quo ")
  | .rem => some (chars "__slim_rem ")
  | .land => some (chars "and ")
  | .lor => some (chars "or ")
  | .eql => some (chars "__slim_eql ")
  | .neq => some (chars "__slim_eql ")
  | .lss => some (chars "__slim_lss ")
  | .gtr => some (chars "__slim_gtr ")
  | .leq => some (chars "__slim_gtr ")
  | .geq => some (chars "__slim_lss ")
  | .otherB => none

/-- Whether the operator sets the `negate` flag (`!=`, `<=`, `>=`). -/
def binNegate : BinOp → Bool
  | .neq => true
  | .leq => true
  | .geq => true
  | _ => false

/-- The helper text for unary operators. -/
def unOpText : UnOp → Option Str
  | .uminus => some (chars "__slim_minus ")
  | .uplus => some (chars "__slim_plus ")
  | .unot => some (chars "not ")
  | .otherU => none

/-- The argument-emission loop of the `CallExpr` case:
`for i := 0; i < len(ce.Args); i++ { c.write(" " + pop()) }`. -/
def popN : Nat → List Str → CState → List Str × CState
  | 0, stk, c => (stk, c)
  | n + 1, stk, c =>
    let (v, stk) := popS stk
    popN n stk (write c (chars " " ++ v))

mutual

/-- Embedding of the recursive `exec` closure of
`Compiler.visitExpression`: post-order linearization over an explicit
stack of operand references, writing one action per temporary binding. -/
def exec : Nat → GoExpr → List Str → CState → Except String (List Str × CState)
  | 0, _, _, _ => .error "fuel"
  | f + 1, .binary op x y, stk, c => do
    let (stk, c) ← exec f y stk c
    let (stk, c) ← exec f x stk c
    let (name, c) := tempvar c
    let c := write c (chars "\x7b\x7b" ++ name ++ chars " := ")
    match binOpText op with
    | none => .error "Unexpected operator!"
    | some optxt =>
      let c := write c optxt
      let (a1, stk) := popS stk
      let (a2, stk) := popS stk
      let c := write c (a1 ++ chars " " ++ a2 ++ chars "\x7d\x7d")
      if binNegate op then
        let (negname, c) := tempvar c
        let c := write c (chars "\x7b\x7b" ++ negname ++ chars " := not " ++ name ++ chars "\x7d\x7d")
        .ok (negname :: stk, c)
      else
        .ok (name :: stk, c)
  | f + 1, .unary op x, stk, c => do
    let (stk, c) ← exec f x stk c
    let (name, c) := tempvar c
    let c := write c (chars "\x7b\x7b" ++ name ++ chars " := ")
    match unOpText op with
    | none => .error "Unexpected operator!"
    | some optxt =>
      let c := write c optxt
      let (a1, stk) := popS stk
      let c := write c (a1 ++ chars "\x7d\x7d")
      .ok (name :: stk, c)
  | f + 1, .paren x, stk, c => exec f x stk c
  | _ + 1, .lit v, stk, c => .ok (v :: stk, c)
  | _ + 1, .ident name, stk, c =>
    if name.length ≥ (chars "__DOLLAR__").length ∧
        name.take (chars "__DOLLAR__").length = chars "__DOLLAR__" then
      if name = chars "__DOLLAR__" then .ok (chars "." :: stk, c)
      else .ok ((chars "$" ++ name.drop (chars "__DOLLAR__").length) :: stk, c)
    else
      .ok ((chars "." ++ name) :: stk, c)
  | f + 1, .selector x sel, stk, c => do
    let (stk, c) ← exec f x stk c
    let (xv, stk) := popS stk
    let xv := if xv = chars "." then [] else xv
    let (name, c) := tempvar c
    let c := write c (chars "\x7b\x7b" ++ name ++ chars " := " ++ xv ++ chars "." ++ sel ++ chars "\x7d\x7d")
    .ok (name :: stk, c)
  | f + 1, .call fn args, stk, c => do
    let (stk, c) ← execArgs f args stk c
    let (name, c) := tempvar c
    let builtin :=
      match fn with
      | .ident iname => builtinFunctions.contains iname
      | _ => false
    let (stk, c) ←
      if builtin then
        match fn with
        | .ident iname =>
          let stk := iname :: stk
          let (v, stk) := popS stk
          pure (stk, write c (chars "\x7b\x7b" ++ name ++ chars " := " ++ v))
        | _ => .error "unreachable"
      else do
        let (stk, c) ← exec f fn stk c
        let (v, stk) := popS stk
        pure (stk, write c (chars "\x7b\x7b" ++ name ++ chars " := call " ++ v))
    let (stk, c) := popN args.length stk c
    let c := write c (chars "\x7d\x7d")
    .ok (name :: stk, c)
  | _ + 1, .unsupported ty, _, _ => .error ("Unable to parse expression. Unsupported: " ++ ty)
termination_by structural f _ _ _ => f

/-- The descending-index argument loop of the `CallExpr` case:
`for i := len(ce.Args) - 1; i >= 0; i--` — the last argument is
linearized first. -/
def execArgs : Nat → List GoExpr → List Str → CState → Except String (List Str × CState)
  | 0, _, _, _ => .error "fuel"
  | _ + 1, [], stk, c => .ok (stk, c)
  | f + 1, a :: rest, stk, c => do
    let (stk, c) ← execArgs f rest stk c
    exec f a stk c
termination_by structural f _ _ _ => f

end

/-- Embedding of `Compiler.visitExpression`: run `exec` with an empty
stack and return the final stack top. -/
def visitExpression (f : Nat) (e : GoExpr) (c : CState) : Except String (Str × CState) := do
  let (stk, c) ← exec f e [] c
  .ok ((popS stk).1, c)

end Slim

namespace Slim

/-- Embedding of `Compiler.visitRawInterpolation`: substitute the dollar
sigil, parse with the host expression parser `pe` (modelling
`go/parser.ParseExpr`), linearize, and substitute back in the returned
reference. -/
def visitRawInterpolation (f : Nat) (pe : Str → Option GoExpr) (value : Str) (c : CState) :
    Except String (Str × CState) := do
  let v := replaceAllStr (chars "$") (chars "__DOLLAR__") value
  match pe v with
  | none => .error "Unable to parse expression."
  | some e => do
    let (r, c) ← visitExpression f e c
    .ok (replaceAllStr (chars "__DOLLAR__") (chars "$") r, c)

/-- Embedding of `Compiler.visitInterpolation`. -/
def visitInterpolation (f : Nat) (pe : Str → Option GoExpr) (value : Str) (c : CState) :
    Except String (Str × CState) := do
  let (r, c) ← visitRawInterpolation f pe value c
  .ok (chars "\x7b\x7b" ++ r ++ chars "\x7d\x7d", c)

/-- `textInterpolateRegexp = #\{(.*?)\}`. -/
def textInterpolateRegexp : RE :=
  seqs [.lit (chars "#\x7b"), .grp 1 (.lazyStar anyP), .lit (chars "\x7d")]

/-- `textEscapeRegexp = \{\{(.*?)\}\}`. -/
def textEscapeRegexp : RE :=
  seqs [.lit (chars "\x7b\x7b"), .grp 1 (.lazyStar anyP), .lit (chars "\x7d\x7d")]

/-- Leftmost (unanchored) match of `re` in `s`: the text before the
match, the match itself, and the rest.  A zero-length match is treated as
no match; neither of the two replacement patterns can match the empty
string. -/
def findLeft (re : RE) (s : Str) : Option (Str × Str × Str) :=
  match matchRE re s with
  | some (_, n) =>
    if n = 0 then
      match s with
      | [] => none
      | c :: t => (findLeft re t).map fun r => (c :: r.1, r.2.1, r.2.2)
    else some ([], s.take n, s.drop n)
  | none =>
    match s with
    | [] => none
    | c :: t => (findLeft re t).map fun r => (c :: r.1, r.2.1, r.2.2)

/-- State-threading embedding of `regexp.ReplaceAllStringFunc`: the
callback runs on each successive non-overlapping leftmost match, from
left to right (the interpolation callback writes temporary bindings into
the compiler buffer as it goes). -/
def replaceFuncSt (re : RE) (f : Str → CState → Except String (Str × CState)) :
    Nat → Str → CState → Except String (Str × CState)
  | 0, _, _ => .error "fuel"
  | fuel + 1, s, c =>
    match findLeft re s with
    | none => .ok (s, c)
    | some (pre, m, rest) => do
      let (rep, c) ← f m c
      let (tl, c) ← replaceFuncSt re f fuel rest c
      .ok (pre ++ rep ++ tl, c)

/-- The final line-splitting loop of `Compiler.visitText`: write each
line, re-indenting after every embedded newline. -/
def writeLines (opts : COpts) : List Str → CState → CState
  | [], c => c
  | [l], c => write c l
  | l :: rest, c => writeLines opts rest (cindent opts 0 false (write (write c l) (chars "\n")))

/-- The callback of the first `ReplaceAllStringFunc` in
`Compiler.visitText`: a literal `{{…}}` becomes
`{{"{{"}}` + inner + `{{"}}"}}` so it survives unevaluated. -/
def textEscapeCb (m : Str) (c : CState) : Except String (Str × CState) :=
  .ok (chars "\x7b\x7b\"\x7b\x7b\"\x7d\x7d" ++ ((m.drop 2).dropLast.dropLast) ++
       chars "\x7b\x7b\"\x7d\x7d\"\x7d\x7d", c)

/-- The callback of the second `ReplaceAllStringFunc` in
`Compiler.visitText`: `#{expr}` is replaced by the interpolated lowered
expression, whose temporaries are written into the buffer. -/
def textInterpCb (f : Nat) (pe : Str → Option GoExpr) (m : Str) (c : CState) :
    Except String (Str × CState) :=
  visitInterpolation f pe ((m.drop 2).dropLast) c

/-- Embedding of `Compiler.visitText`: escape literal action delimiters,
replace `#{expr}` interpolations (their temporaries are emitted into the
buffer before the text), then write the result line by line. -/
def visitTextF (f : Nat) (pe : Str → Option GoExpr) (opts : COpts) (value : Str) (c : CState) :
    Except String CState := do
  let (v1, c) ← replaceFuncSt textEscapeRegexp textEscapeCb (value.length + 1) value c
  let (v2, c) ← replaceFuncSt textInterpolateRegexp (textInterpCb f pe) (v1.length + 1) v1 c
  .ok (writeLines opts (v2.splitOn '\n') c)

/-- The `attrib` record local to `Compiler.visitTag`. -/
structure TAttrib where
  value : Str
  condition : Str
deriving DecidableEq, Repr

/-- Go map read on the `attribs` association list. -/
def alGet (al : List (Str × TAttrib)) (k : Str) : Option TAttrib :=
  (al.find? fun x => x.1 = k).map fun x => x.2

/-- Go map write on the `attribs` association list (replace in place or
append). -/
def alSet (al : List (Str × TAttrib)) (k : Str) (v : TAttrib) : List (Str × TAttrib) :=
  if (al.find? fun x => x.1 = k).isSome then
    al.map fun x => if x.1 = k then (k, v) else x
  else al ++ [(k, v)]

/-- Compilation context: the host expression parser `pe`
(`go/parser.ParseExpr`), the compile options, and `ordf`, the enumeration
order of the `attribs` map that the Go runtime chooses for the `range` in
`visitTag` (Go randomizes it; any permutation is a possible run). -/
structure Ctx where
  pe : Str → Option GoExpr
  opts : COpts
  ordf : List (Str × TAttrib) → List (Str × TAttrib)

/-- The attribute-preparation loop at the top of `Compiler.visitTag`,
including the class-merge rule. -/
def buildAttribs (f : Nat) (pe : Str → Option GoExpr) :
    List AttrN → List (Str × TAttrib) → CState → Except String (List (Str × TAttrib) × CState)
  | [], al, c => .ok (al, c)
  | item :: rest, al, c => do
    let (value, c) ←
      if !item.isRaw then visitInterpolation f pe item.value c
      else if item.value = [] then pure (([] : Str), c)
      else pure (chars "\x7b\x7b\"" ++ item.value ++ chars "\"\x7d\x7d", c)
    let (cond, c) ←
      if item.condition.length ≠ 0 then visitRawInterpolation f pe item.condition c
      else pure (([] : Str), c)
    match alGet al (chars "class") with
    | some prev =>
      if item.name = chars "class" then
        let value := chars " " ++ value
        let value :=
          if cond.length > 0 then
            chars "\x7b\x7bif " ++ cond ++ chars "\x7d\x7d" ++ value ++ chars "\x7b\x7bend\x7d\x7d"
          else value
        let prevVal :=
          if prev.condition.length > 0 then
            chars "\x7b\x7bif " ++ prev.condition ++ chars "\x7d\x7d" ++ prev.value ++
              chars "\x7b\x7bend\x7d\x7d"
          else prev.value
        buildAttribs f pe rest (alSet al (chars "class") ⟨prevVal ++ value, []⟩) c
      else
        buildAttribs f pe rest (alSet al item.name ⟨value, cond⟩) c
    | none =>
      buildAttribs f pe rest (alSet al item.name ⟨value, cond⟩) c

/-- The attribute-emission `range` of `Compiler.visitTag`, applied to the
enumeration the Go runtime happened to choose. -/
def emitAttribs : List (Str × TAttrib) → CState → CState
  | [], c => c
  | (name, a) :: rest, c =>
    let c := if a.condition.length > 0 then write c (chars "\x7b\x7bif " ++ a.condition ++ chars "\x7d\x7d") else c
    let c :=
      if a.value = [] then write c (chars " " ++ name)
      else write c (chars " " ++ name ++ chars "=\"" ++ a.value ++ chars "\"")
    let c := if a.condition.length > 0 then write c (chars "\x7b\x7bend\x7d\x7d") else c
    emitAttribs rest c

mutual

/-- Embedding of `Compiler.visit` (the type switch) together with the
individual visit methods.  A `NamedBlock` has no case in the switch, so
visiting one writes nothing.  A nil `*Block` where one is dereferenced
(an `if` with no indented body) is the nil-pointer panic, caught by the
entry-point recover. -/
def visitNode (ctx : Ctx) : Nat → Node → CState → Except String CState
  | 0, _, _ => .error "fuel"
  | f + 1, .block cs, c => visitBlockL ctx f cs c
  | _ + 1, .doctype v, c => .ok (write c (doctypeString v))
  | f + 1, .comment v b silent, c =>
    if silent then .ok c
    else
      let c := cindent ctx.opts 0 false c
      match b with
      | none =>
        .ok (write c (chars "\x7b\x7bunescaped \"<!-- " ++ escapeStr v ++ chars " -->\"\x7d\x7d"))
      | some cs => do
        let c := write c (chars "<!-- " ++ v)
        let c ← visitBlockL ctx f cs c
        .ok (write c (chars " -->"))
  | f + 1, .text v _, c => visitTextF f ctx.pe ctx.opts v c
  | f + 1, .tag name attrs blk, c => visitTagF ctx f name attrs blk c
  | f + 1, .cond e pos neg, c => do
    let (r, c) ← visitRawInterpolation f ctx.pe e c
    let c := write c (chars "\x7b\x7bif " ++ r ++ chars "\x7d\x7d")
    match pos with
    | none => .error "runtime error: nil block"
    | some cs => do
      let c ← visitBlockL ctx f cs c
      let c ←
        match neg with
        | none => pure c
        | some ns => do
          let c := write c (chars "\x7b\x7belse\x7d\x7d")
          visitBlockL ctx f ns c
      .ok (write c (chars "\x7b\x7bend\x7d\x7d"))
  | f + 1, .each k v e blk, c =>
    match blk with
    | none => .ok c
    | some cs => do
      let (r, c) ← visitRawInterpolation f ctx.pe e c
      let c :=
        if v.length = 0 then
          write c (chars "\x7b\x7brange " ++ k ++ chars " := " ++ r ++ chars "\x7d\x7d")
        else
          write c (chars "\x7b\x7brange " ++ k ++ chars ", " ++ v ++ chars " := " ++ r ++ chars "\x7d\x7d")
      let c ← visitBlockL ctx f cs c
      .ok (write c (chars "\x7b\x7bend\x7d\x7d"))
  | f + 1, .assign v e, c => do
    let (r, c) ← visitRawInterpolation f ctx.pe e c
    .ok (write c (chars "\x7b\x7b" ++ v ++ chars " := " ++ r ++ chars "\x7d\x7d"))
  | _ + 1, .namedBlock _ _ _, c => .ok c

/-- Embedding of `Compiler.visitBlock` on a block's child list. -/
def visitBlockL (ctx : Ctx) : Nat → List Node → CState → Except String CState
  | 0, _, _ => .error "fuel"
  | f + 1, cs, c => visitBlockChildren ctx (canInline cs) f cs c

/-- The child loop of `Compiler.visitBlock`: a newline-plus-reindent
before a `Text` child when the block is not inlineable. -/
def visitBlockChildren (ctx : Ctx) (inline : Bool) :
    Nat → List Node → CState → Except String CState
  | 0, _, _ => .error "fuel"
  | _ + 1, [], c => .ok c
  | f + 1, n :: rest, c =>
    let isText : Bool := match n with | .text _ _ => true | _ => false
    let c := if ¬inline && isText then cindent ctx.opts 0 true c else c
    do
      let c ← visitNode ctx f n c
      visitBlockChildren ctx inline f rest c

/-- Embedding of `Compiler.visitTag`. -/
def visitTagF (ctx : Ctx) : Nat → Str → List AttrN → Option (List Node) → CState →
    Except String CState
  | 0, _, _, _, _ => .error "fuel"
  | f + 1, name, attrs, blk, c => do
  let (al, c) ← buildAttribs f ctx.pe attrs [] c
  let c := cindent ctx.opts 0 true c
  let c := write c (chars "<" ++ name)
  let c := emitAttribs (ctx.ordf al) c
  if isAutoclose name then
    .ok (write c (chars " />"))
  else
    let c := write c (chars ">")
    let c ←
      match blk with
      | none => pure c
      | some cs =>
        let inline := canInline cs
        let c := if ¬inline then { c with indentLevel := c.indentLevel + 1 } else c
        do
          let c ← visitBlockL ctx f cs c
          let c :=
            if ¬inline then cindent ctx.opts 0 true { c with indentLevel := c.indentLevel - 1 }
            else c
          pure c
    .ok (write c (chars "</" ++ name ++ chars ">"))

end

/-- Embedding of `Compiler.CompileWriter`: generate into a fresh buffer;
only on success append a trailing newline (for a non-empty buffer) and
write the whole buffer to `out`.  On failure the recover converts the
panic into an error and nothing is written to `out`. -/
def compileWriter (ctx : Ctx) (f : Nat) (node : Node) (out : Str) : Str × Option String :=
  match visitNode ctx f node initC with
  | .error e => (out, some e)
  | .ok c =>
    let buf := if c.buffer.length > 0 then c.buffer ++ chars "\n" else c.buffer
    (out ++ buf, none)

/-- Embedding of `Compiler.CompileString`: compile into a fresh buffer;
an error yields the empty string. -/
def compileString (ctx : Ctx) (f : Nat) (node : Node) : Str × Option String :=
  match compileWriter ctx f node [] with
  | (_, some e) => ([], some e)
  | (res, none) => (res, none)

end Slim

namespace Slim

/-!
## Claims
-/

/-- The Append loop appends the child's children in order. -/
lemma pushAll_eq (prev ours : List Node) : pushAll prev ours = prev ++ ours := by
  induction ours generalizing prev with
  | nil => simp [pushAll]
  | cons c t ih =>
    show List.foldl (fun acc c => acc ++ [c]) (prev ++ [c]) t = prev ++ c :: t
    rw [show List.foldl (fun acc c => acc ++ [c]) (prev ++ [c]) t = pushAll (prev ++ [c]) t from rfl,
      ih]
    simp

/-- The Prepend loop inserts the child's children in front, preserving
their order. -/
lemma unshiftAll_eq (prev ours : List Node) : unshiftAll prev ours = ours ++ prev := by
  induction ours generalizing prev with
  | nil => simp [unshiftAll]
  | cons c t ih =>
    have h : unshiftAll prev (c :: t) = c :: unshiftAll prev t := by
      simp [unshiftAll, List.foldl_append]
    rw [h, ih]
    rfl

/-- C1: when a child file extends a parent, `Parse()` forces the parent's
full parse (the result is the parent chain's tree, computed by
`parseWithF` from the child's recorded named blocks), and for each named
block the parent registered the children are composed per the child's
override: no override keeps the parent's children; Append appends the
child's children after the parent's in order; Prepend inserts them before
the parent's with both groups' internal order preserved; Default replaces
the parent's children entirely. -/
theorem claim_C1 :
    (∀ prev : List Node, mergeNamedBlock prev none = prev) ∧
    (∀ (prev : List Node) (e : NBEntry), e.modifier = .append →
      mergeNamedBlock prev (some e) = prev ++ e.children) ∧
    (∀ (prev : List Node) (e : NBEntry), e.modifier = .prepend →
      mergeNamedBlock prev (some e) = e.children ++ prev) ∧
    (∀ (prev : List Node) (e : NBEntry), e.modifier = .dflt →
      mergeNamedBlock prev (some e) = e.children) ∧
    (∀ (env : FileEnv) (f : Nat) (toks : List Token) tree ents pname,
      parseUnitF env noOv f toks = .ok (tree, ents, some pname) →
      parseTopF env (f + 1) toks = parseWithF env f pname (entLookup ents)) := by
  refine ⟨fun prev => rfl, ?_, ?_, ?_, ?_⟩
  · intro prev e h
    simp [mergeNamedBlock, h, pushAll_eq]
  · intro prev e h
    simp [mergeNamedBlock, h, unshiftAll_eq]
  · intro prev e h
    simp [mergeNamedBlock, h]
  · intro env f toks tree ents pname h
    rw [parseTopF, h]
    rfl

/-- Environment for the C1 witness: a parent file with no content. -/
def envW : FileEnv := fun n => if n = chars "par" then some [] else none

/-- Token stream for the C1 witness: a single `extend par` construct. -/
def toksW : List Token := [⟨.tokExtend, chars "par", []⟩]

/-- Witness for C1 at concrete inputs. -/
theorem claim_C1_witness :
    mergeNamedBlock [Node.text (chars "P") false]
        (some ⟨.append, [Node.text (chars "C") false]⟩) =
      [Node.text (chars "P") false] ++ [Node.text (chars "C") false] ∧
    mergeNamedBlock [Node.text (chars "P") false]
        (some ⟨.prepend, [Node.text (chars "C") false]⟩) =
      [Node.text (chars "C") false] ++ [Node.text (chars "P") false] ∧
    parseTopF envW 6 toksW = parseWithF envW 5 (chars "par") (entLookup []) :=
  ⟨claim_C1.2.1 _ _ rfl, claim_C1.2.2.1 _ _ rfl,
   claim_C1.2.2.2.2 envW 5 toksW [Node.block []] [] (chars "par") (by rfl)⟩

end Slim

namespace Slim

/-- Progress relation between generator states: the temporary counter
never decreases, the ghost log grows by exactly the names
`tempName (old+1), …, tempName (new)`, and the buffer is append-only. -/
def CProg (c c' : CState) : Prop :=
  c.tempvarIndex ≤ c'.tempvarIndex ∧
  c'.tvLog = c.tvLog ++ (List.range (c'.tempvarIndex - c.tempvarIndex)).map
    (fun j => tempName (c.tempvarIndex + 1 + j)) ∧
  ∃ w, c'.buffer = c.buffer ++ w

lemma CProg.refl (c : CState) : CProg c c := by
  refine ⟨le_rfl, ?_, ⟨[], by simp⟩⟩
  simp

lemma CProg.trans {a b c : CState} (h1 : CProg a b) (h2 : CProg b c) : CProg a c := by
  obtain ⟨le1, log1, w1, buf1⟩ := h1
  obtain ⟨le2, log2, w2, buf2⟩ := h2
  refine ⟨le1.trans le2, ?_, ⟨w1 ++ w2, by simp [buf2, buf1]⟩⟩
  rw [log2, log1, List.append_assoc]
  congr 1
  have hsplit : c.tempvarIndex - a.tempvarIndex =
      (b.tempvarIndex - a.tempvarIndex) + (c.tempvarIndex - b.tempvarIndex) := by omega
  rw [hsplit, List.range_add, List.map_append, List.map_map]
  congr 1
  apply List.map_congr_left
  intro j hj
  simp only [Function.comp_apply]
  congr 1
  omega

lemma CProg_write (c : CState) (v : Str) : CProg c (write c v) := by
  refine ⟨le_rfl, ?_, ⟨v, rfl⟩⟩
  simp [write]

lemma CProg_tempvar (c : CState) : CProg c (tempvar c).2 := by
  refine ⟨by simp [tempvar], ?_, ⟨[], by simp [tempvar]⟩⟩
  simp [tempvar, List.range_succ]

lemma CProg_cindent (opts : COpts) (k : Nat) (nl : Bool) (c : CState) :
    CProg c (cindent opts k nl c) := by
  unfold cindent
  by_cases h : opts.prettyPrint
  · simp only [h]
    by_cases h2 : (nl && !c.buffer.isEmpty) = true <;>
      simp only [h2] <;>
      first
        | exact (CProg_write _ _).trans (CProg_write _ _)
        | exact CProg_write _ _
  · simp [h, CProg.refl]

lemma CProg_popN (n : Nat) (stk : List Str) (c : CState) : CProg c (popN n stk c).2 := by
  induction n generalizing stk c with
  | zero => exact CProg.refl c
  | succ m ih =>
    simp only [popN]
    exact (CProg_write _ _).trans (ih _ _)

/-- `exec` and `execArgs` only advance the generator state (fresh
increasing temporaries, append-only buffer). -/
lemma execAll_prog : ∀ f : Nat,
    (∀ e stk c r, exec f e stk c = .ok r → CProg c r.2) ∧
    (∀ as stk c r, execArgs f as stk c = .ok r → CProg c r.2) := by
  intro f
  induction f with
  | zero =>
    exact ⟨fun e stk c r h => by simp [exec] at h,
           fun as stk c r h => by simp [execArgs] at h⟩
  | succ f ih =>
    obtain ⟨ihE, ihA⟩ := ih
    constructor
    · intro e stk c r h
      cases e with
      | binary op x y =>
        simp only [exec, bind, Except.bind] at h
        cases hy : exec f y stk c with
        | error err => simp [hy] at h
        | ok ry =>
          simp only [hy] at h
          cases hx : exec f x ry.1 ry.2 with
          | error err => simp [hx] at h
          | ok rx =>
            simp only [hx] at h
            cases hop : binOpText op with
            | none => simp [hop] at h
            | some optxt =>
              simp only [hop] at h
              have base : CProg c rx.2 := (ihE _ _ _ _ hy).trans (ihE _ _ _ _ hx)
              by_cases hn : binNegate op = true
              · simp only [if_pos hn] at h
                injection h with h
                subst h
                exact base.trans ((CProg_tempvar _).trans ((CProg_write _ _).trans
                  ((CProg_write _ _).trans ((CProg_write _ _).trans
                  ((CProg_tempvar _).trans (CProg_write _ _))))))
              · simp only [if_neg hn] at h
                injection h with h
                subst h
                exact base.trans ((CProg_tempvar _).trans ((CProg_write _ _).trans
                  ((CProg_write _ _).trans (CProg_write _ _))))
      | unary op x =>
        simp only [exec, bind, Except.bind] at h
        cases hx : exec f x stk c with
        | error err => simp [hx] at h
        | ok rx =>
          simp only [hx] at h
          cases hop : unOpText op with
          | none => simp [hop] at h
          | some optxt =>
            simp only [hop] at h
            injection h with h
            subst h
            exact (ihE _ _ _ _ hx).trans ((CProg_tempvar _).trans ((CProg_write _ _).trans
              ((CProg_write _ _).trans (CProg_write _ _))))
      | paren x =>
        simp only [exec] at h
        exact ihE _ _ _ _ h
      | lit v =>
        simp only [exec] at h
        injection h with h
        subst h
        exact CProg.refl c
      | ident name =>
        simp only [exec] at h
        split at h
        · split at h
          · injection h with h; subst h; exact CProg.refl c
          · injection h with h; subst h; exact CProg.refl c
        · injection h with h; subst h; exact CProg.refl c
      | selector x sel =>
        simp only [exec, bind, Except.bind] at h
        cases hx : exec f x stk c with
        | error err => simp [hx] at h
        | ok rx =>
          simp only [hx] at h
          injection h with h
          subst h
          exact (ihE _ _ _ _ hx).trans ((CProg_tempvar _).trans (CProg_write _ _))
      | call fn args =>
        simp only [exec, bind, Except.bind, pure, Except.pure] at h
        cases ha : execArgs f args stk c with
        | error err => simp [ha] at h
        | ok ra =>
          simp only [ha] at h
          have base : CProg c ra.2 := ihA _ _ _ _ ha
          cases fn with
          | ident iname =>
            simp only [] at h
            by_cases hb : builtinFunctions.contains iname = true
            · simp only [if_pos hb] at h
              injection h with h
              subst h
              exact base.trans ((CProg_tempvar _).trans ((CProg_write _ _).trans
                ((CProg_popN _ _ _).trans (CProg_write _ _))))
            · simp only [if_neg hb] at h
              cases hfn : exec f (.ident iname) ra.1 (tempvar ra.2).2 with
              | error err => simp [hfn] at h
              | ok rf =>
                simp only [hfn] at h
                injection h with h
                subst h
                exact base.trans ((CProg_tempvar _).trans ((ihE _ _ _ _ hfn).trans
                  ((CProg_write _ _).trans ((CProg_popN _ _ _).trans (CProg_write _ _)))))
          | binary op x y =>
            simp only [reduceIte] at h
            cases hfn : exec f (.binary op x y) ra.1 (tempvar ra.2).2 with
            | error err => simp [hfn] at h
            | ok rf =>
              simp only [hfn] at h
              injection h with h
              subst h
              exact base.trans ((CProg_tempvar _).trans ((ihE _ _ _ _ hfn).trans
                ((CProg_write _ _).trans ((CProg_popN _ _ _).trans (CProg_write _ _)))))
          | unary op x =>
            simp only [reduceIte] at h
            cases hfn : exec f (.unary op x) ra.1 (tempvar ra.2).2 with
            | error err => simp [hfn] at h
            | ok rf =>
              simp only [hfn] at h
              injection h with h
              subst h
              exact base.trans ((CProg_tempvar _).trans ((ihE _ _ _ _ hfn).trans
                ((CProg_write _ _).trans ((CProg_popN _ _ _).trans (CProg_write _ _)))))
          | paren x =>
            simp only [reduceIte] at h
            cases hfn : exec f (.paren x) ra.1 (tempvar ra.2).2 with
            | error err => simp [hfn] at h
            | ok rf =>
              simp only [hfn] at h
              injection h with h
              subst h
              exact base.trans ((CProg_tempvar _).trans ((ihE _ _ _ _ hfn).trans
                ((CProg_write _ _).trans ((CProg_popN _ _ _).trans (CProg_write _ _)))))
          | lit v =>
            simp only [reduceIte] at h
            cases hfn : exec f (.lit v) ra.1 (tempvar ra.2).2 with
            | error err => simp [hfn] at h
            | ok rf =>
              simp only [hfn] at h
              injection h with h
              subst h
              exact base.trans ((CProg_tempvar _).trans ((ihE _ _ _ _ hfn).trans
                ((CProg_write _ _).trans ((CProg_popN _ _ _).trans (CProg_write _ _)))))
          | selector x sel =>
            simp only [reduceIte] at h
            cases hfn : exec f (.selector x sel) ra.1 (tempvar ra.2).2 with
            | error err => simp [hfn] at h
            | ok rf =>
              simp only [hfn] at h
              injection h with h
              subst h
              exact base.trans ((CProg_tempvar _).trans ((ihE _ _ _ _ hfn).trans
                ((CProg_write _ _).trans ((CProg_popN _ _ _).trans (CProg_write _ _)))))
          | call g gargs =>
            simp only [reduceIte] at h
            cases hfn : exec f (.call g gargs) ra.1 (tempvar ra.2).2 with
            | error err => simp [hfn] at h
            | ok rf =>
              simp only [hfn] at h
              injection h with h
              subst h
              exact base.trans ((CProg_tempvar _).trans ((ihE _ _ _ _ hfn).trans
                ((CProg_write _ _).trans ((CProg_popN _ _ _).trans (CProg_write _ _)))))
          | unsupported ty =>
            simp only [reduceIte] at h
            cases hfn : exec f (.unsupported ty) ra.1 (tempvar ra.2).2 with
            | error err => simp [hfn] at h
            | ok rf =>
              simp only [hfn] at h
              injection h with h
              subst h
              exact base.trans ((CProg_tempvar _).trans ((ihE _ _ _ _ hfn).trans
                ((CProg_write _ _).trans ((CProg_popN _ _ _).trans (CProg_write _ _)))))
      | unsupported ty =>
        simp only [exec] at h
        exact absurd h (by simp)
    · intro as stk c r h
      cases as with
      | nil =>
        simp only [execArgs] at h
        injection h with h
        subst h
        exact CProg.refl c
      | cons a rest =>
        simp only [execArgs, bind, Except.bind] at h
        cases hr : execArgs f rest stk c with
        | error err => simp [hr] at h
        | ok rr =>
          simp only [hr] at h
          exact (ihA _ _ _ _ hr).trans (ihE _ _ _ _ h)

end Slim

namespace Slim

/-- Buffer growth of a successful `exec`. -/
lemma exec_buffer {f : Nat} {e : GoExpr} {stk : List Str} {c : CState} {r}
    (h : exec f e stk c = .ok r) : ∃ w, r.2.buffer = c.buffer ++ w :=
  ((execAll_prog f).1 e stk c r h).2.2

/-- C2: linearization of a binary operation emits the right operand's
actions first, then the left operand's, then exactly one action binding a
fresh temporary to the mapped primitive applied to the left and right
operand references (for `!=`, `<=`, `>=` one further negation binding
follows, cf. C3); call arguments are linearized right to left (the last
argument first) before the call's own binding; and for `a + b * c` the
multiplication's temporary binding appears in the output before the
addition's binding and is consumed by it. -/
theorem claim_C2 :
    (∀ (f : Nat) (op : BinOp) (x y : GoExpr) (stk : List Str) (c : CState) r,
      exec (f + 1) (.binary op x y) stk c = .ok r →
      ∃ ry rx optxt wy wx,
        exec f y stk c = .ok ry ∧
        exec f x ry.1 ry.2 = .ok rx ∧
        ry.2.buffer = c.buffer ++ wy ∧
        rx.2.buffer = c.buffer ++ wy ++ wx ∧
        binOpText op = some optxt ∧
        (let name := tempName (rx.2.tempvarIndex + 1)
         let a1 := (popS rx.1).1
         let a2 := (popS (popS rx.1).2).1
         let binding := chars "\x7b\x7b" ++ name ++ chars " := " ++ optxt ++
           a1 ++ chars " " ++ a2 ++ chars "\x7d\x7d"
         if binNegate op then
           r.2.buffer = c.buffer ++ wy ++ wx ++ binding ++
             (chars "\x7b\x7b" ++ tempName (rx.2.tempvarIndex + 2) ++
              chars " := not " ++ name ++ chars "\x7d\x7d") ∧
           r.1 = tempName (rx.2.tempvarIndex + 2) :: (popS (popS rx.1).2).2
         else
           r.2.buffer = c.buffer ++ wy ++ wx ++ binding ∧
           r.1 = name :: (popS (popS rx.1).2).2)) ∧
    (∀ (f : Nat) (a : GoExpr) (rest : List GoExpr) (stk : List Str) (c : CState),
      execArgs (f + 1) (a :: rest) stk c =
        (execArgs f rest stk c).bind fun rr => exec f a rr.1 rr.2) ∧
    (∀ (f : Nat) (fn : GoExpr) (args : List GoExpr) (stk : List Str) (c : CState) r,
      exec (f + 1) (.call fn args) stk c = .ok r →
      ∃ ra, execArgs f args stk c = .ok ra ∧ ∃ w, r.2.buffer = ra.2.buffer ++ w) ∧
    exec 9 (.binary .add (.ident (chars "a"))
        (.binary .mul (.ident (chars "b")) (.ident (chars "c")))) [] initC =
      .ok ([tempName 2],
        ⟨0, chars "\x7b\x7b$__slim_1 := __slim_mul .b .c\x7d\x7d\x7b\x7b$__slim_2 := __slim_add .a $__slim_1\x7d\x7d",
         2, [tempName 1, tempName 2]⟩) := by
  refine ⟨?_, ?_, ?_, by rfl⟩
  · intro f op x y stk c r h
    simp only [exec, bind, Except.bind] at h
    cases hy : exec f y stk c with
    | error err => simp [hy] at h
    | ok ry =>
      simp only [hy] at h
      cases hx : exec f x ry.1 ry.2 with
      | error err => simp [hx] at h
      | ok rx =>
        simp only [hx] at h
        cases hop : binOpText op with
        | none => simp [hop] at h
        | some optxt =>
          simp only [hop] at h
          obtain ⟨wy, hwy⟩ := exec_buffer hy
          obtain ⟨wx, hwx⟩ := exec_buffer hx
          refine ⟨ry, rx, optxt, wy, wx, rfl, hx, hwy, by rw [hwx, hwy, List.append_assoc], rfl, ?_⟩
          by_cases hn : binNegate op = true
          · simp only [if_pos hn] at h ⊢
            injection h with h
            subst h
            constructor
            · simp [write, tempvar, hwx, hwy]
            · simp [tempvar, write]
          · simp only [if_neg hn] at h ⊢
            injection h with h
            subst h
            constructor
            · simp [write, tempvar, hwx, hwy]
            · simp [tempvar, write]
  · intro f a rest stk c
    rfl
  · intro f fn args stk c r h
    simp only [exec, bind, Except.bind, pure, Except.pure] at h
    cases ha : execArgs f args stk c with
    | error err => simp [ha] at h
    | ok ra =>
      simp only [ha] at h
      refine ⟨ra, rfl, ?_⟩
      cases fn with
      | ident iname =>
        by_cases hb : builtinFunctions.contains iname = true
        · simp only [if_pos hb] at h
          injection h with h
          subst h
          exact ((CProg_tempvar _).trans ((CProg_write _ _).trans
            ((CProg_popN _ _ _).trans (CProg_write _ _)))).2.2
        · simp only [if_neg hb] at h
          cases hfn : exec f (.ident iname) ra.1 (tempvar ra.2).2 with
          | error err => simp [hfn] at h
          | ok rf =>
            simp only [hfn] at h
            injection h with h
            subst h
            exact ((CProg_tempvar _).trans (((execAll_prog f).1 _ _ _ _ hfn).trans
              ((CProg_write _ _).trans ((CProg_popN _ _ _).trans (CProg_write _ _))))).2.2
      | binary op x y =>
        simp only [reduceIte] at h
        cases hfn : exec f (.binary op x y) ra.1 (tempvar ra.2).2 with
        | error err => simp [hfn] at h
        | ok rf =>
          simp only [hfn] at h
          injection h with h
          subst h
          exact ((CProg_tempvar _).trans (((execAll_prog f).1 _ _ _ _ hfn).trans
            ((CProg_write _ _).trans ((CProg_popN _ _ _).trans (CProg_write _ _))))).2.2
      | unary op x =>
        simp only [reduceIte] at h
        cases hfn : exec f (.unary op x) ra.1 (tempvar ra.2).2 with
        | error err => simp [hfn] at h
        | ok rf =>
          simp only [hfn] at h
          injection h with h
          subst h
          exact ((CProg_tempvar _).trans (((execAll_prog f).1 _ _ _ _ hfn).trans
            ((CProg_write _ _).trans ((CProg_popN _ _ _).trans (CProg_write _ _))))).2.2
      | paren x =>
        simp only [reduceIte] at h
        cases hfn : exec f (.paren x) ra.1 (tempvar ra.2).2 with
        | error err => simp [hfn] at h
        | ok rf =>
          simp only [hfn] at h
          injection h with h
          subst h
          exact ((CProg_tempvar _).trans (((execAll_prog f).1 _ _ _ _ hfn).trans
            ((CProg_write _ _).trans ((CProg_popN _ _ _).trans (CProg_write _ _))))).2.2
      | lit v =>
        simp only [reduceIte] at h
        cases hfn : exec f (.lit v) ra.1 (tempvar ra.2).2 with
        | error err => simp [hfn] at h
        | ok rf =>
          simp only [hfn] at h
          injection h with h
          subst h
          exact ((CProg_tempvar _).trans (((execAll_prog f).1 _ _ _ _ hfn).trans
            ((CProg_write _ _).trans ((CProg_popN _ _ _).trans (CProg_write _ _))))).2.2
      | selector x sel =>
        simp only [reduceIte] at h
        cases hfn : exec f (.selector x sel) ra.1 (tempvar ra.2).2 with
        | error err => simp [hfn] at h
        | ok rf =>
          simp only [hfn] at h
          injection h with h
          subst h
          exact ((CProg_tempvar _).trans (((execAll_prog f).1 _ _ _ _ hfn).trans
            ((CProg_write _ _).trans ((CProg_popN _ _ _).trans (CProg_write _ _))))).2.2
      | call g gargs =>
        simp only [reduceIte] at h
        cases hfn : exec f (.call g gargs) ra.1 (tempvar ra.2).2 with
        | error err => simp [hfn] at h
        | ok rf =>
          simp only [hfn] at h
          injection h with h
          subst h
          exact ((CProg_tempvar _).trans (((execAll_prog f).1 _ _ _ _ hfn).trans
            ((CProg_write _ _).trans ((CProg_popN _ _ _).trans (CProg_write _ _))))).2.2
      | unsupported ty =>
        simp only [reduceIte] at h
        cases hfn : exec f (.unsupported ty) ra.1 (tempvar ra.2).2 with
        | error err => simp [hfn] at h
        | ok rf =>
          simp only [hfn] at h
          injection h with h
          subst h
          exact ((CProg_tempvar _).trans (((execAll_prog f).1 _ _ _ _ hfn).trans
            ((CProg_write _ _).trans ((CProg_popN _ _ _).trans (CProg_write _ _))))).2.2

end Slim

namespace Slim

/-- Concrete result of lowering `1 + 2` from a fresh state. -/
def c2res : List Str × CState :=
  ([tempName 1], ⟨0, chars "\x7b\x7b$__slim_1 := __slim_add 1 2\x7d\x7d", 1, [tempName 1]⟩)

/-- Concrete result of lowering `len(9)` from a fresh state. -/
def c2resCall : List Str × CState :=
  ([tempName 1], ⟨0, chars "\x7b\x7b$__slim_1 := len 9\x7d\x7d", 1, [tempName 1]⟩)

/-- Witness for C2 at a concrete binary expression and a concrete call. -/
theorem claim_C2_witness :
    (∃ ry rx optxt wy wx,
      exec 1 (.lit (chars "2")) [] initC = .ok ry ∧
      exec 1 (.lit (chars "1")) ry.1 ry.2 = .ok rx ∧
      ry.2.buffer = initC.buffer ++ wy ∧
      rx.2.buffer = initC.buffer ++ wy ++ wx ∧
      binOpText .add = some optxt ∧
      (let name := tempName (rx.2.tempvarIndex + 1)
       let a1 := (popS rx.1).1
       let a2 := (popS (popS rx.1).2).1
       let binding := chars "\x7b\x7b" ++ name ++ chars " := " ++ optxt ++
         a1 ++ chars " " ++ a2 ++ chars "\x7d\x7d"
       if binNegate .add then
         c2res.2.buffer = initC.buffer ++ wy ++ wx ++ binding ++
           (chars "\x7b\x7b" ++ tempName (rx.2.tempvarIndex + 2) ++
            chars " := not " ++ name ++ chars "\x7d\x7d") ∧
         c2res.1 = tempName (rx.2.tempvarIndex + 2) :: (popS (popS rx.1).2).2
       else
         c2res.2.buffer = initC.buffer ++ wy ++ wx ++ binding ∧
         c2res.1 = name :: (popS (popS rx.1).2).2)) ∧
    (∃ ra, execArgs 2 [GoExpr.lit (chars "9")] [] initC = .ok ra ∧
      ∃ w, c2resCall.2.buffer = ra.2.buffer ++ w) :=
  ⟨claim_C2.1 1 .add (.lit (chars "1")) (.lit (chars "2")) [] initC c2res (by rfl),
   claim_C2.2.2.1 2 (.ident (chars "len")) [GoExpr.lit (chars "9")] [] initC c2resCall (by rfl)⟩

end Slim

namespace Slim

/-- C3: comparison lowering uses only the two ordering helpers plus
negation: `==` emits one `__slim_eql` binding; `!=` the same binding
followed by a `not` temporary; `<` and `>` emit `__slim_lss` / `__slim_gtr`
directly; `x <= y` emits a `__slim_gtr` binding on (left, right) — i.e.
x > y — followed by a negation temporary; `x >= y` emits a `__slim_lss`
binding — x < y — followed by a negation temporary. -/
theorem claim_C3 :
    ∀ (f : Nat) (x y : GoExpr) (stk : List Str) (c : CState) ry rx,
      exec f y stk c = .ok ry → exec f x ry.1 ry.2 = .ok rx →
      (let k := rx.2.tempvarIndex
       let a1 := (popS rx.1).1
       let a2 := (popS (popS rx.1).2).1
       let rest := (popS (popS rx.1).2).2
       let bindOf := fun (i : Nat) (helper : String) =>
         chars "\x7b\x7b" ++ tempName i ++ chars " := " ++ chars helper ++ a1 ++
           chars " " ++ a2 ++ chars "\x7d\x7d"
       let negBind := fun (i j : Nat) =>
         chars "\x7b\x7b" ++ tempName j ++ chars " := not " ++ tempName i ++ chars "\x7d\x7d"
       (∃ c1, exec (f + 1) (.binary .eql x y) stk c = .ok (tempName (k + 1) :: rest, c1) ∧
          c1.buffer = rx.2.buffer ++ bindOf (k + 1) "__slim_eql " ∧
          c1.tempvarIndex = k + 1) ∧
       (∃ c1, exec (f + 1) (.binary .neq x y) stk c = .ok (tempName (k + 2) :: rest, c1) ∧
          c1.buffer = rx.2.buffer ++ bindOf (k + 1) "__slim_eql " ++ negBind (k + 1) (k + 2) ∧
          c1.tempvarIndex = k + 2) ∧
       (∃ c1, exec (f + 1) (.binary .lss x y) stk c = .ok (tempName (k + 1) :: rest, c1) ∧
          c1.buffer = rx.2.buffer ++ bindOf (k + 1) "__slim_lss " ∧
          c1.tempvarIndex = k + 1) ∧
       (∃ c1, exec (f + 1) (.binary .gtr x y) stk c = .ok (tempName (k + 1) :: rest, c1) ∧
          c1.buffer = rx.2.buffer ++ bindOf (k + 1) "__slim_gtr " ∧
          c1.tempvarIndex = k + 1) ∧
       (∃ c1, exec (f + 1) (.binary .leq x y) stk c = .ok (tempName (k + 2) :: rest, c1) ∧
          c1.buffer = rx.2.buffer ++ bindOf (k + 1) "__slim_gtr " ++ negBind (k + 1) (k + 2) ∧
          c1.tempvarIndex = k + 2) ∧
       (∃ c1, exec (f + 1) (.binary .geq x y) stk c = .ok (tempName (k + 2) :: rest, c1) ∧
          c1.buffer = rx.2.buffer ++ bindOf (k + 1) "__slim_lss " ++ negBind (k + 1) (k + 2) ∧
          c1.tempvarIndex = k + 2)) := by
  intro f x y stk c ry rx hy hx
  refine ⟨?_, ?_, ?_, ?_, ?_, ?_⟩ <;>
    exact ⟨_, by simp only [exec, bind, Except.bind, hy, hx]; rfl,
      by simp [write, tempvar, List.append_assoc, chars],
      by simp [write, tempvar]⟩

end Slim

namespace Slim

/-- Witness for C3: concrete lowering of `x <= y` (ordering helper on
(left, right) followed by a negation temporary). -/
theorem claim_C3_witness :
    ∃ c1, exec 2 (.binary .leq (.lit (chars "x")) (.lit (chars "y"))) [] initC =
        .ok ([tempName 2], c1) ∧
      c1.buffer = initC.buffer ++
        (chars "\x7b\x7b" ++ tempName 1 ++ chars " := " ++ chars "__slim_gtr " ++ chars "x" ++
         chars " " ++ chars "y" ++ chars "\x7d\x7d") ++
        (chars "\x7b\x7b" ++ tempName 2 ++ chars " := not " ++ tempName 1 ++ chars "\x7d\x7d") ∧
      c1.tempvarIndex = 2 :=
  (claim_C3 1 (.lit (chars "x")) (.lit (chars "y")) [] initC ([chars "y"], initC)
    ([chars "x", chars "y"], initC) (by rfl) (by rfl)).2.2.2.2.1

end Slim

namespace Slim

/-- C7 counterexample: the shorthand `foo` is not in the lookup table,
and the generator emits `<!DOCTYPE foo>` for it — not the HTML5 doctype
`<!DOCTYPE html>` the claim requires for unrecognized shorthands. -/
theorem claim_C7_cex :
    (doctypes.find? fun x => chars x.1 = chars "foo") = none ∧
    doctypeString (chars "foo") = chars "<!DOCTYPE foo>" ∧
    doctypeString (chars "foo") ≠ chars "<!DOCTYPE html>" :=
  ⟨by rfl, by rfl, by decide⟩

/-- C7 as amended: `visitDoctype` writes `Doctype.String` of the node's
shorthand, which is the table string for the keys actually present
(`5`, `default`, `xml`, `transitional`, `strict`, `frameset`, `1.1`,
`basic`, `mobile`), and `<!DOCTYPE <shorthand>>` for every shorthand not
in the table (the scanner's default shorthand `html` thereby yields the
HTML5 doctype `<!DOCTYPE html>`). -/
theorem claim_C7_amended :
    (∀ k s, (k, s) ∈ doctypes → doctypeString (chars k) = chars s) ∧
    (∀ v, (doctypes.find? fun x => chars x.1 = v) = none →
      doctypeString v = chars "<!DOCTYPE " ++ v ++ chars ">") ∧
    doctypeString (chars "html") = chars "<!DOCTYPE html>" ∧
    (∀ (ctx : Ctx) (f : Nat) (v : Str) (c : CState),
      visitNode ctx (f + 1) (.doctype v) c = .ok (write c (doctypeString v))) := by
  refine ⟨?_, ?_, by rfl, ?_⟩
  · intro k s h
    fin_cases h <;> rfl
  · intro v h
    simp [doctypeString, h]
  · intro ctx f v c
    rfl

/-- Witness for C7 (amended) at concrete shorthands. -/
theorem claim_C7_witness :
    doctypeString (chars "5") = chars "<!DOCTYPE html>" ∧
    doctypeString (chars "zz") = chars "<!DOCTYPE " ++ chars "zz" ++ chars ">" :=
  ⟨claim_C7_amended.1 "5" "<!DOCTYPE html>" (by decide),
   claim_C7_amended.2.1 (chars "zz") (by rfl)⟩

/-- C8: a compile is atomic.  If generation fails, `CompileWriter` writes
nothing to the supplied writer and `CompileString` returns the empty
string with the error; if generation succeeds the caller receives the
complete buffer. -/
theorem claim_C8 :
    (∀ (ctx : Ctx) (f : Nat) (node : Node) (out : Str) (e : String),
      visitNode ctx f node initC = .error e →
      compileWriter ctx f node out = (out, some e) ∧
      compileString ctx f node = ([], some e)) ∧
    (∀ (ctx : Ctx) (f : Nat) (node : Node) (out : Str) (c : CState),
      visitNode ctx f node initC = .ok c →
      compileWriter ctx f node out =
        (out ++ (if c.buffer.length > 0 then c.buffer ++ chars "\n" else c.buffer), none) ∧
      compileString ctx f node =
        ((if c.buffer.length > 0 then c.buffer ++ chars "\n" else c.buffer), none)) := by
  constructor
  · intro ctx f node out e h
    constructor
    · simp [compileWriter, h]
    · simp [compileString, compileWriter, h]
  · intro ctx f node out c h
    constructor
    · simp [compileWriter, h]
    · simp [compileString, compileWriter, h]

/-- A context whose expression parser rejects everything (any actual
parse failure of `go/parser.ParseExpr` behaves like this on the failing
text). -/
def ctxFail : Ctx := ⟨fun _ => none, ⟨true, false⟩, id⟩

/-- Witness for C8: a failing compile (unparsable assignment expression)
leaves the writer untouched and returns the empty string; a succeeding
compile (a doctype) delivers the whole buffer. -/
theorem claim_C8_witness :
    (compileWriter ctxFail 5 (.assign (chars "$v") (chars "x")) (chars "PRE") =
      (chars "PRE", some "Unable to parse expression.") ∧
     compileString ctxFail 5 (.assign (chars "$v") (chars "x")) =
      ([], some "Unable to parse expression.")) ∧
    compileWriter ctxFail 5 (.doctype (chars "5")) (chars "PRE") =
      (chars "PRE" ++ (chars "<!DOCTYPE html>" ++ chars "\n"), none) := by
  constructor
  · exact claim_C8.1 ctxFail 5 (.assign (chars "$v") (chars "x")) (chars "PRE")
      "Unable to parse expression." (by rfl)
  · have h := (claim_C8.2 ctxFail 5 (.doctype (chars "5")) (chars "PRE")
      (write initC (doctypeString (chars "5"))) (by rfl)).1
    simpa [write, initC, doctypeString, doctypes] using h

/-- C5 (code bug): the tokenizer stores the assignment target under the
`Data` key `X`, but the parser reads the key `Variable`; the scanned
variable name therefore never reaches the emitted binding, which comes
out as an action with an empty target (`{{ := <expr>}}`). -/
theorem claim_C5_bug :
    scanAssignment (chars "$v = 1") =
      some (⟨.tokAssignment, chars "1", [("X", chars "$v")]⟩, 6) ∧
    parseToken (fun _ => none) noOv 5
        ⟨[⟨.tokAssignment, chars "1", [("X", chars "$v")]⟩], [], none⟩ =
      .ok (.assign [] (chars "1"), ⟨[], [], none⟩) ∧
    visitNode ⟨fun s => if s = chars "1" then some (.lit (chars "1")) else none,
        ⟨true, false⟩, id⟩ 5 (.assign [] (chars "1")) initC =
      .ok ⟨0, chars "\x7b\x7b := 1\x7d\x7d", 0, []⟩ ∧
    ([] : Str) ≠ chars "$v" :=
  ⟨by decide, by rfl, by rfl, by decide⟩

/-- The lookup-order parameter corresponding to one possible Go map
iteration and its reversal (Go randomizes the `range` order, so both are
possible runs on the same input). -/
def ordId : List (Str × TAttrib) → List (Str × TAttrib) := id

/-- The reversed enumeration order. -/
def ordRev : List (Str × TAttrib) → List (Str × TAttrib) := List.reverse

/-- The C4 failing input: `div[a="1"][b="2"]` parsed to its tag node. -/
def tagAB : Node :=
  .tag (chars "div") [⟨chars "a", chars "1", true, []⟩, ⟨chars "b", chars "2", true, []⟩] none

/-- C4 (code bug): `visitTag` emits attributes by ranging over a Go map,
whose enumeration order is randomized per run; under two orders that Go
may produce for the same input (both permutations of the attribute map),
the same document compiles to different byte sequences, so compiling
identical input twice need not be byte-identical. -/
theorem claim_C4_bug :
    (∀ l : List (Str × TAttrib), (ordRev l).Perm l) ∧
    compileString ⟨fun _ => none, ⟨true, false⟩, ordId⟩ 9 tagAB =
      (chars "<div a=\"\x7b\x7b\"1\"\x7d\x7d\" b=\"\x7b\x7b\"2\"\x7d\x7d\"></div>\n", none) ∧
    compileString ⟨fun _ => none, ⟨true, false⟩, ordRev⟩ 9 tagAB =
      (chars "<div b=\"\x7b\x7b\"2\"\x7d\x7d\" a=\"\x7b\x7b\"1\"\x7d\x7d\"></div>\n", none) ∧
    (compileString ⟨fun _ => none, ⟨true, false⟩, ordId⟩ 9 tagAB).1 ≠
      (compileString ⟨fun _ => none, ⟨true, false⟩, ordRev⟩ 9 tagAB).1 :=
  ⟨fun l => List.reverse_perm l, by rfl, by rfl, by decide⟩

end Slim

namespace Slim

/-- `decReprGo` computes the base-10 digit string (via `Nat.digits`). -/
lemma decReprGo_eq : ∀ n f acc, n ≤ f →
    decReprGo f n acc = ((Nat.digits 10 n).map digitCh).reverse ++ acc := by
  intro n
  induction n using Nat.strong_induction_on with
  | _ n ih =>
    intro f acc hf
    match n, f with
    | 0, 0 => simp [decReprGo]
    | 0, g + 1 => simp [decReprGo]
    | m + 1, g + 1 =>
      have hdiv : (m + 1) / 10 < m + 1 := Nat.div_lt_self (Nat.succ_pos m) (by norm_num)
      have hle : (m + 1) / 10 ≤ g := by omega
      have step : decReprGo (g + 1) (m + 1) acc =
          decReprGo g ((m + 1) / 10) (digitCh ((m + 1) % 10) :: acc) := rfl
      rw [step, ih ((m + 1) / 10) hdiv g (digitCh ((m + 1) % 10) :: acc) hle]
      rw [Nat.digits_def' (by norm_num : 1 < 10) (Nat.succ_pos m)]
      simp

/-- `decRepr` of a positive number is its digit string. -/
lemma decRepr_pos (n : Nat) (h : 0 < n) :
    decRepr n = ((Nat.digits 10 n).map digitCh).reverse := by
  rw [decRepr, if_neg (by omega)]
  simpa using decReprGo_eq n n [] le_rfl

/-- `digitCh` is injective below 10. -/
lemma digitCh_inj : ∀ a < 10, ∀ b < 10, digitCh a = digitCh b → a = b := by decide

/-- Mapping `digitCh` over digit lists is injective. -/
lemma map_digitCh_inj : ∀ l1 l2 : List Nat, (∀ d ∈ l1, d < 10) → (∀ d ∈ l2, d < 10) →
    l1.map digitCh = l2.map digitCh → l1 = l2 := by
  intro l1
  induction l1 with
  | nil => intro l2 _ _ h; cases l2 <;> simp_all
  | cons a t ih =>
    intro l2 h1 h2 h
    cases l2 with
    | nil => simp at h
    | cons b u =>
      simp only [List.map_cons, List.cons.injEq] at h
      have ha : a = b := digitCh_inj a (h1 a (by simp)) b (h2 b (by simp)) h.1
      have ht : t = u := ih u (fun d hd => h1 d (by simp [hd])) (fun d hd => h2 d (by simp [hd])) h.2
      rw [ha, ht]

/-- `Nat.ofDigits` of a singleton zero digit. -/
lemma ofDigits_single_zero : Nat.ofDigits 10 [0] = 0 := by
  simp [Nat.ofDigits]

/-- The decimal representation is injective. -/
lemma decRepr_inj : ∀ m n : Nat, decRepr m = decRepr n → m = n := by
  have key : ∀ k : Nat, 0 < k → decRepr k ≠ chars "0" := by
    intro k hk hcon
    rw [decRepr_pos k hk] at hcon
    have hlen : ((Nat.digits 10 k).map digitCh).reverse.length = 1 := by rw [hcon]; rfl
    simp only [List.length_reverse, List.length_map] at hlen
    obtain ⟨d, hd⟩ := List.length_eq_one.mp hlen
    rw [hd] at hcon
    simp only [List.map_cons, List.map_nil, List.reverse_cons, List.reverse_nil,
      List.nil_append] at hcon
    have hd10 : d < 10 := Nat.digits_lt_base (by norm_num) (by rw [hd]; simp)
    have : d = 0 := digitCh_inj d hd10 0 (by norm_num) (by
      simpa [chars, digitCh] using hcon)
    have hk0 := Nat.ofDigits_digits 10 k
    rw [hd, this] at hk0
    rw [ofDigits_single_zero] at hk0
    omega
  intro m n h
  match hm : m, hn : n with
  | 0, 0 => rfl
  | 0, k + 1 =>
    exact absurd h.symm (key (k + 1) (Nat.succ_pos k))
  | k + 1, 0 =>
    exact absurd h (key (k + 1) (Nat.succ_pos k))
  | j + 1, k + 1 =>
    rw [decRepr_pos _ (Nat.succ_pos j), decRepr_pos _ (Nat.succ_pos k)] at h
    have h2 := List.reverse_injective h
    have h3 := map_digitCh_inj _ _
      (fun d hd => Nat.digits_lt_base (by norm_num) hd)
      (fun d hd => Nat.digits_lt_base (by norm_num) hd) h2
    have h4 := Nat.ofDigits_digits 10 (j + 1)
    have h5 := Nat.ofDigits_digits 10 (k + 1)
    rw [h3] at h4
    exact h4.symm.trans h5

/-- Temporary names are injective in the counter value. -/
lemma tempName_inj : ∀ i j : Nat, tempName i = tempName j → i = j := by
  intro i j h
  have h2 : decRepr i = decRepr j := by
    have := congrArg (List.drop (chars "$__slim_").length) h
    simpa [tempName] using this
  exact decRepr_inj i j h2

end Slim

namespace Slim

/-- `visitRawInterpolation` only advances the generator state. -/
lemma vri_prog {f : Nat} {pe : Str → Option GoExpr} {v : Str} {c : CState} {r}
    (h : visitRawInterpolation f pe v c = .ok r) : CProg c r.2 := by
  simp only [visitRawInterpolation, bind, Except.bind] at h
  cases hp : pe (replaceAllStr (chars "$") (chars "__DOLLAR__") v) with
  | none => simp [hp] at h
  | some e =>
    simp only [hp] at h
    simp only [visitExpression, bind, Except.bind] at h
    cases hx : exec f e [] c with
    | error err => simp [hx] at h
    | ok rx =>
      simp only [hx] at h
      injection h with h
      subst h
      exact (execAll_prog f).1 _ _ _ _ hx

/-- `visitInterpolation` only advances the generator state. -/
lemma vint_prog {f : Nat} {pe : Str → Option GoExpr} {v : Str} {c : CState} {r}
    (h : visitInterpolation f pe v c = .ok r) : CProg c r.2 := by
  simp only [visitInterpolation, bind, Except.bind] at h
  cases hv : visitRawInterpolation f pe v c with
  | error err => simp [hv] at h
  | ok rv =>
    simp only [hv] at h
    injection h with h
    subst h
    exact vri_prog (r := rv) hv

/-- `replaceFuncSt` only advances the generator state when its callback
does. -/
lemma replaceFuncSt_prog {re : RE} {cb : Str → CState → Except String (Str × CState)}
    (hcb : ∀ m c r, cb m c = .ok r → CProg c r.2) :
    ∀ (fuel : Nat) (s : Str) (c : CState) r,
      replaceFuncSt re cb fuel s c = .ok r → CProg c r.2 := by
  intro fuel
  induction fuel with
  | zero => intro s c r h; simp [replaceFuncSt] at h
  | succ fuel ih =>
    intro s c r h
    simp only [replaceFuncSt, bind, Except.bind] at h
    cases hf : findLeft re s with
    | none =>
      simp only [hf] at h
      injection h with h
      subst h
      exact CProg.refl c
    | some pmr =>
      simp only [hf] at h
      cases hc : cb pmr.2.1 c with
      | error err => simp [hc] at h
      | ok rc =>
        simp only [hc] at h
        cases ht : replaceFuncSt re cb fuel pmr.2.2 rc.2 with
        | error err => simp [ht] at h
        | ok rt =>
          simp only [ht] at h
          injection h with h
          subst h
          exact (hcb _ _ rc hc).trans (ih _ _ rt ht)

/-- `writeLines` only advances the generator state. -/
lemma writeLines_prog (opts : COpts) : ∀ (ls : List Str) (c : CState),
    CProg c (writeLines opts ls c) := by
  intro ls
  induction ls with
  | nil => intro c; exact CProg.refl c
  | cons l rest ih =>
    intro c
    cases rest with
    | nil => exact CProg_write c l
    | cons m u =>
      exact ((CProg_write _ _).trans ((CProg_write _ _).trans
        (CProg_cindent _ _ _ _))).trans (ih _)

/-- `visitTextF` only advances the generator state. -/
lemma visitTextF_prog {f : Nat} {pe : Str → Option GoExpr} {opts : COpts} {v : Str}
    {c : CState} {r} (h : visitTextF f pe opts v c = .ok r) : CProg c r := by
  simp only [visitTextF, bind, Except.bind] at h
  cases h1 : replaceFuncSt textEscapeRegexp textEscapeCb (v.length + 1) v c with
  | error err => simp [h1] at h
  | ok r1 =>
    simp only [h1] at h
    cases h2 : replaceFuncSt textInterpolateRegexp (textInterpCb f pe)
        (r1.1.length + 1) r1.1 r1.2 with
    | error err => simp [h2] at h
    | ok r2 =>
      simp only [h2] at h
      injection h with h
      subst h
      have p1 : CProg c r1.2 :=
        replaceFuncSt_prog (fun m c r hm => by
          simp only [textEscapeCb] at hm
          injection hm with hm
          subst hm
          exact CProg.refl c) _ _ _ r1 h1
      have p2 : CProg r1.2 r2.2 :=
        replaceFuncSt_prog (fun m c r hm => vint_prog (r := r) hm) _ _ _ r2 h2
      exact (p1.trans p2).trans (writeLines_prog opts _ _)

/-- `buildAttribs` only advances the generator state. -/
lemma buildAttribs_prog {f : Nat} {pe : Str → Option GoExpr} :
    ∀ (attrs : List AttrN) (al : List (Str × TAttrib)) (c : CState) r,
      buildAttribs f pe attrs al c = .ok r → CProg c r.2 := by
  intro attrs
  induction attrs with
  | nil =>
    intro al c r h
    simp only [buildAttribs] at h
    injection h with h
    subst h
    exact CProg.refl c
  | cons item rest ih =>
    intro al c r h
    simp only [buildAttribs, bind, Except.bind, pure, Except.pure] at h
    by_cases hraw : (!item.isRaw) = true
    · simp only [hraw, if_pos] at h
      cases hv : visitInterpolation f pe item.value c with
      | error err => simp [hv] at h
      | ok rv =>
        simp only [hv] at h
        have pv : CProg c rv.2 := vint_prog hv
        by_cases hcnd : item.condition.length ≠ 0
        · simp only [if_pos hcnd] at h
          cases hc : visitRawInterpolation f pe item.condition rv.2 with
          | error err => simp [hc] at h
          | ok rc =>
            simp only [hc] at h
            have pc : CProg rv.2 rc.2 := vri_prog hc
            cases hal : alGet al (chars "class") with
            | some prev =>
              simp only [hal] at h
              by_cases hcl : item.name = chars "class"
              · simp only [if_pos hcl] at h
                exact (pv.trans pc).trans (ih _ _ _ h)
              · simp only [if_neg hcl] at h
                exact (pv.trans pc).trans (ih _ _ _ h)
            | none =>
              simp only [hal] at h
              exact (pv.trans pc).trans (ih _ _ _ h)
        · simp only [if_neg hcnd] at h
          cases hal : alGet al (chars "class") with
          | some prev =>
            simp only [hal] at h
            by_cases hcl : item.name = chars "class"
            · simp only [if_pos hcl] at h
              exact pv.trans (ih _ _ _ h)
            · simp only [if_neg hcl] at h
              exact pv.trans (ih _ _ _ h)
          | none =>
            simp only [hal] at h
            exact pv.trans (ih _ _ _ h)
    · simp only [hraw] at h
      by_cases hemp : item.value = []
      · simp only [if_pos hemp] at h
        by_cases hcnd : item.condition.length ≠ 0
        · simp only [if_pos hcnd] at h
          cases hc : visitRawInterpolation f pe item.condition c with
          | error err => simp [hc] at h
          | ok rc =>
            simp only [hc] at h
            have pc : CProg c rc.2 := vri_prog hc
            cases hal : alGet al (chars "class") with
            | some prev =>
              simp only [hal] at h
              by_cases hcl : item.name = chars "class"
              · simp only [if_pos hcl] at h
                exact pc.trans (ih _ _ _ h)
              · simp only [if_neg hcl] at h
                exact pc.trans (ih _ _ _ h)
            | none =>
              simp only [hal] at h
              exact pc.trans (ih _ _ _ h)
        · simp only [if_neg hcnd] at h
          cases hal : alGet al (chars "class") with
          | some prev =>
            simp only [hal] at h
            by_cases hcl : item.name = chars "class"
            · simp only [if_pos hcl] at h
              exact ih _ _ _ h
            · simp only [if_neg hcl] at h
              exact ih _ _ _ h
          | none =>
            simp only [hal] at h
            exact ih _ _ _ h
      · simp only [if_neg hemp] at h
        by_cases hcnd : item.condition.length ≠ 0
        · simp only [if_pos hcnd] at h
          cases hc : visitRawInterpolation f pe item.condition c with
          | error err => simp [hc] at h
          | ok rc =>
            simp only [hc] at h
            have pc : CProg c rc.2 := vri_prog hc
            cases hal : alGet al (chars "class") with
            | some prev =>
              simp only [hal] at h
              by_cases hcl : item.name = chars "class"
              · simp only [if_pos hcl] at h
                exact pc.trans (ih _ _ _ h)
              · simp only [if_neg hcl] at h
                exact pc.trans (ih _ _ _ h)
            | none =>
              simp only [hal] at h
              exact pc.trans (ih _ _ _ h)
        · simp only [if_neg hcnd] at h
          cases hal : alGet al (chars "class") with
          | some prev =>
            simp only [hal] at h
            by_cases hcl : item.name = chars "class"
            · simp only [if_pos hcl] at h
              exact ih _ _ _ h
            · simp only [if_neg hcl] at h
              exact ih _ _ _ h
          | none =>
            simp only [hal] at h
            exact ih _ _ _ h

/-- `emitAttribs` only advances the generator state. -/
lemma emitAttribs_prog : ∀ (al : List (Str × TAttrib)) (c : CState),
    CProg c (emitAttribs al c) := by
  intro al
  induction al with
  | nil => intro c; exact CProg.refl c
  | cons a rest ih =>
    intro c
    simp only [emitAttribs]
    refine CProg.trans ?_ (ih _)
    by_cases h1 : a.2.condition.length > 0 <;>
      by_cases h2 : a.2.value = [] <;>
      simp only [h1, h2, if_pos, if_neg, if_true, if_false] <;>
      first
        | exact (CProg_write _ _).trans ((CProg_write _ _).trans (CProg_write _ _))
        | exact CProg_write _ _

end Slim

namespace Slim

/-- A change of the indentation level alone is progress. -/
lemma CProg_indentLevel (c : CState) (k : Nat) : CProg c { c with indentLevel := k } :=
  ⟨le_rfl, by simp, [], by simp⟩

/-- Progress through the optional pre-text indent of `visitBlock`. -/
lemma CProg_ite_cindent (opts : COpts) (P : Prop) [Decidable P] (c : CState) :
    CProg c (if P then cindent opts 0 true c else c) := by
  split
  · exact CProg_cindent _ _ _ _
  · exact CProg.refl c

/-- Progress through the optional indent-level bump of `visitTag`. -/
lemma CProg_ite_indent (P : Prop) [Decidable P] (c : CState) (k : Nat) :
    CProg c (if P then { c with indentLevel := k } else c) := by
  split
  · exact CProg_indentLevel _ _
  · exact CProg.refl c

/-- Progress through the optional de-indent plus reindent of `visitTag`. -/
lemma CProg_ite_outdent (opts : COpts) (P : Prop) [Decidable P] (c : CState) (k : Nat) :
    CProg c (if P then cindent opts 0 true { c with indentLevel := k } else c) := by
  split
  · exact (CProg_indentLevel _ _).trans (CProg_cindent _ _ _ _)
  · exact CProg.refl c

/-- All generator visitors only advance the state: the buffer is
append-only and the ghost log stays synchronized with the temporary
counter. -/
lemma visitAll_prog : ∀ f : Nat,
    (∀ (ctx : Ctx) (n : Node) (c c' : CState), visitNode ctx f n c = .ok c' → CProg c c') ∧
    (∀ (ctx : Ctx) (inline : Bool) (cs : List Node) (c c' : CState),
      visitBlockChildren ctx inline f cs c = .ok c' → CProg c c') ∧
    (∀ (ctx : Ctx) (cs : List Node) (c c' : CState),
      visitBlockL ctx f cs c = .ok c' → CProg c c') ∧
    (∀ (ctx : Ctx) (name : Str) (attrs : List AttrN) (blk : Option (List Node)) (c c' : CState),
      visitTagF ctx f name attrs blk c = .ok c' → CProg c c') := by
  intro f
  induction f with
  | zero =>
    refine ⟨fun ctx n c c' h => ?_, fun ctx inline cs c c' h => ?_,
      fun ctx cs c c' h => ?_, fun ctx name attrs blk c c' h => ?_⟩ <;>
      simp [visitNode, visitBlockChildren, visitBlockL, visitTagF] at h
  | succ f ih =>
    obtain ⟨ihN, ihC, ihB, ihT⟩ := ih
    have goalB : ∀ (ctx : Ctx) (cs : List Node) (c c' : CState),
        visitBlockL ctx (f + 1) cs c = .ok c' → CProg c c' := by
      intro ctx cs c c' h
      simp only [visitBlockL] at h
      exact ihC _ _ _ _ _ h
    have goalC : ∀ (ctx : Ctx) (inline : Bool) (cs : List Node) (c c' : CState),
        visitBlockChildren ctx inline (f + 1) cs c = .ok c' → CProg c c' := by
      intro ctx inline cs c c' h
      cases cs with
      | nil =>
        simp only [visitBlockChildren] at h
        injection h with h
        subst h
        exact CProg.refl c
      | cons n rest =>
        simp only [visitBlockChildren, bind, Except.bind] at h
        split at h
        · simp at h
        · rename_i c1 heq
          exact ((CProg_ite_cindent ctx.opts _ c).trans (ihN _ _ _ _ heq)).trans
            (ihC _ _ _ _ _ h)
    have goalT : ∀ (ctx : Ctx) (name : Str) (attrs : List AttrN) (blk : Option (List Node))
        (c c' : CState), visitTagF ctx (f + 1) name attrs blk c = .ok c' → CProg c c' := by
      intro ctx name attrs blk c c' h
      cases blk with
      | none =>
        simp only [visitTagF, bind, Except.bind, pure, Except.pure] at h
        split at h
        · simp at h
        · rename_i ra hba
          have pemit : CProg c (emitAttribs (ctx.ordf ra.1)
              (write (cindent ctx.opts 0 true ra.2) (chars "<" ++ name))) :=
            (buildAttribs_prog attrs [] c ra hba).trans ((CProg_cindent _ _ _ _).trans
              ((CProg_write _ _).trans (emitAttribs_prog _ _)))
          split at h
          · injection h with h
            subst h
            exact pemit.trans (CProg_write _ _)
          · injection h with h
            subst h
            exact pemit.trans ((CProg_write _ _).trans (CProg_write _ _))
      | some cs =>
        simp only [visitTagF, bind, Except.bind, pure, Except.pure] at h
        split at h
        · simp at h
        · rename_i ra hba
          have pemit : CProg c (emitAttribs (ctx.ordf ra.1)
              (write (cindent ctx.opts 0 true ra.2) (chars "<" ++ name))) :=
            (buildAttribs_prog attrs [] c ra hba).trans ((CProg_cindent _ _ _ _).trans
              ((CProg_write _ _).trans (emitAttribs_prog _ _)))
          split at h
          · injection h with h
            subst h
            exact pemit.trans (CProg_write _ _)
          · split at h
            · simp at h
            · rename_i c1 heq
              injection h with h
              subst h
              exact pemit.trans ((CProg_write _ _).trans
                (((CProg_ite_indent _ _ _).trans ((ihB _ _ _ _ heq).trans
                  (CProg_ite_outdent ctx.opts _ _ _))).trans (CProg_write _ _)))
    refine ⟨?_, goalC, goalB, goalT⟩
    intro ctx n c c' h
    cases n with
    | block cs =>
      simp only [visitNode] at h
      exact ihB _ _ _ _ h
    | doctype v =>
      simp only [visitNode] at h
      injection h with h
      subst h
      exact CProg_write _ _
    | comment v b silent =>
      cases b with
      | none =>
        simp only [visitNode] at h
        split at h
        · injection h with h
          subst h
          exact CProg.refl c
        · injection h with h
          subst h
          exact (CProg_cindent _ _ _ _).trans (CProg_write _ _)
      | some cs =>
        simp only [visitNode, bind, Except.bind] at h
        split at h
        · injection h with h
          subst h
          exact CProg.refl c
        · split at h
          · simp at h
          · rename_i c1 heq
            injection h with h
            subst h
            exact (CProg_cindent _ _ _ _).trans ((CProg_write _ _).trans
              ((ihB _ _ _ _ heq).trans (CProg_write _ _)))
    | text v raw =>
      simp only [visitNode] at h
      exact visitTextF_prog h
    | tag name attrs blk =>
      simp only [visitNode] at h
      exact ihT _ _ _ _ _ _ h
    | cond e pos neg =>
      cases pos with
      | none =>
        simp only [visitNode, bind, Except.bind] at h
        split at h
        · simp at h
        · simp at h
      | some cs =>
        cases neg with
        | none =>
          simp only [visitNode, bind, Except.bind, pure, Except.pure] at h
          split at h
          · simp at h
          · rename_i rv hv
            split at h
            · simp at h
            · rename_i c1 heq
              injection h with h
              subst h
              exact (vri_prog hv).trans ((CProg_write _ _).trans
                ((ihB _ _ _ _ heq).trans (CProg_write _ _)))
        | some ns =>
          simp only [visitNode, bind, Except.bind, pure, Except.pure] at h
          split at h
          · simp at h
          · rename_i rv hv
            split at h
            · simp at h
            · rename_i c1 heq
              split at h
              · simp at h
              · rename_i c2 heq2
                injection h with h
                subst h
                exact (vri_prog hv).trans ((CProg_write _ _).trans
                  ((ihB _ _ _ _ heq).trans ((CProg_write _ _).trans
                    ((ihB _ _ _ _ heq2).trans (CProg_write _ _)))))
    | each k v e blk =>
      cases blk with
      | none =>
        simp only [visitNode] at h
        injection h with h
        subst h
        exact CProg.refl c
      | some cs =>
        simp only [visitNode, bind, Except.bind] at h
        split at h
        · simp at h
        · rename_i rv hv
          split at h
          · simp at h
          · rename_i c1 heq
            injection h with h
            subst h
            refine (vri_prog hv).trans (CProg.trans ?_ ((ihB _ _ _ _ heq).trans
              (CProg_write _ _)))
            split
            · exact CProg_write _ _
            · exact CProg_write _ _
    | assign v e =>
      simp only [visitNode, bind, Except.bind, pure, Except.pure] at h
      split at h
      · simp at h
      · rename_i rv hv
        injection h with h
        subst h
        exact (vri_prog hv).trans (CProg_write _ _)
    | namedBlock nm md cs =>
      simp only [visitNode] at h
      injection h with h
      subst h
      exact CProg.refl c

/-- C10: within one compile (the generator starts from a fresh state),
every temporary name `tempvar` handed out is `$__slim_<i>` with `<i>`
drawn from the counter starting at 1 and increasing by one per call, so
the log of generated names is exactly `$__slim_1, $__slim_2, ...` up to
the final counter value and all names are pairwise distinct. -/
theorem claim_C10 (ctx : Ctx) (f : Nat) (node : Node) (c' : CState)
    (h : visitNode ctx f node initC = .ok c') :
    c'.tvLog = (List.range c'.tempvarIndex).map (fun j => tempName (j + 1)) ∧
    c'.tvLog.Nodup := by
  obtain ⟨_, hlog, _⟩ := (visitAll_prog f).1 ctx node initC c' h
  have hlog' : c'.tvLog = (List.range c'.tempvarIndex).map (fun j => tempName (j + 1)) := by
    rw [hlog]
    simp only [initC, List.nil_append, Nat.sub_zero]
    exact List.map_congr_left fun j _ => by rw [Nat.zero_add, Nat.add_comm]
  refine ⟨hlog', ?_⟩
  rw [hlog']
  refine List.Nodup.map ?_ (List.nodup_range _)
  intro i j hij
  exact Nat.succ_injective (tempName_inj _ _ hij)

/-- The context for the C10 witness: the expression `e` parses to
`1 + 2*3`, which makes the generator draw two temporaries. -/
def c10ctx : Ctx :=
  ⟨fun s => if s = chars "e" then
      some (.binary .add (.lit (chars "1")) (.binary .mul (.lit (chars "2")) (.lit (chars "3"))))
    else none, ⟨true, false⟩, id⟩

/-- The generator state after compiling `$v = e` under `c10ctx`. -/
def c10res : CState :=
  ⟨0, chars ("\x7b\x7b$__slim_1 := __slim_mul 2 3\x7d\x7d" ++
    "\x7b\x7b$__slim_2 := __slim_add 1 $__slim_1\x7d\x7d" ++
    "\x7b\x7b$v := $__slim_2\x7d\x7d"), 2, [tempName 1, tempName 2]⟩

/-- Witness for C10: an assignment whose expression draws two
temporaries yields the log `$__slim_1, $__slim_2`, with no repetition. -/
theorem claim_C10_witness :
    c10res.tvLog = (List.range c10res.tempvarIndex).map (fun j => tempName (j + 1)) ∧
    c10res.tvLog.Nodup :=
  claim_C10 c10ctx 8 (.assign (chars "$v") (chars "e")) c10res (by rfl)

end Slim

namespace Slim

/-!
## Indent/outdent balance (`scanner.Next`, `scanner.scanIndent`)
-/

/-- Count of tokens of one kind in a stream. -/
def tokCnt (k : TokKind) (ts : List Token) : Nat := ts.countP fun t => t.kind = k

/-- The scanner's balance potential: open indentation-stack entries plus
queued stash tokens. -/
def phi (s : Scanner) : Nat := s.indents.length + s.stash.length

lemma readline_indents (s : Scanner) : (readline s).indents = s.indents := by
  unfold readline
  split
  · rfl
  · rcases splitAtNL s.reader with _ | ⟨l, r⟩ <;> rfl

lemma readline_stash (s : Scanner) : (readline s).stash = s.stash := by
  unfold readline
  split
  · rfl
  · rcases splitAtNL s.reader with _ | ⟨l, r⟩ <;> rfl

lemma readline_readRaw (s : Scanner) : (readline s).readRaw = s.readRaw := by
  unfold readline
  split
  · rfl
  · rcases splitAtNL s.reader with _ | ⟨l, r⟩ <;> rfl

lemma consumeIndents_le : ∀ (l : List Str) (buf : Str), (consumeIndents l buf).1 ≤ l.length := by
  intro l
  induction l with
  | nil => intro buf; simp [consumeIndents]
  | cons e rest ih =>
    intro buf
    simp only [consumeIndents]
    split
    · have := ih (buf.drop e.length)
      simp only [List.length_cons]
      omega
    · simp

/-- The kinds the `scnLine` cascade can produce: never an indentation
bookkeeping token and never the end-of-input token. -/
def lineKind (t : Token) : Prop :=
  t.kind ≠ .tokIndent ∧ t.kind ≠ .tokOutdent ∧ t.kind ≠ .tokEOF

lemma lineKind_scanDoctype {buf : Str} {r : Token × Nat} (h : scanDoctype buf = some r) :
    lineKind r.1 := by
  unfold scanDoctype at h
  split at h
  · injection h with h
    subst h
    exact ⟨fun hc => TokKind.noConfusion hc, fun hc => TokKind.noConfusion hc,
      fun hc => TokKind.noConfusion hc⟩
  · exact Option.noConfusion h

lemma lineKind_scanCondition {buf : Str} {r : Token × Nat} (h : scanCondition buf = some r) :
    lineKind r.1 := by
  unfold scanCondition at h
  split at h
  · injection h with h
    subst h
    exact ⟨fun hc => TokKind.noConfusion hc, fun hc => TokKind.noConfusion hc,
      fun hc => TokKind.noConfusion hc⟩
  · split at h
    · injection h with h
      subst h
      exact ⟨fun hc => TokKind.noConfusion hc, fun hc => TokKind.noConfusion hc,
        fun hc => TokKind.noConfusion hc⟩
    · split at h
      · injection h with h
        subst h
        exact ⟨fun hc => TokKind.noConfusion hc, fun hc => TokKind.noConfusion hc,
          fun hc => TokKind.noConfusion hc⟩
      · exact Option.noConfusion h

lemma lineKind_scanEach {buf : Str} {r : Token × Nat} (h : scanEach buf = some r) :
    lineKind r.1 := by
  unfold scanEach at h
  split at h
  · injection h with h
    subst h
    exact ⟨fun hc => TokKind.noConfusion hc, fun hc => TokKind.noConfusion hc,
      fun hc => TokKind.noConfusion hc⟩
  · exact Option.noConfusion h

lemma lineKind_scanImport {buf : Str} {r : Token × Nat} (h : scanImport buf = some r) :
    lineKind r.1 := by
  unfold scanImport at h
  split at h
  · injection h with h
    subst h
    exact ⟨fun hc => TokKind.noConfusion hc, fun hc => TokKind.noConfusion hc,
      fun hc => TokKind.noConfusion hc⟩
  · exact Option.noConfusion h

lemma lineKind_scanExtend {buf : Str} {r : Token × Nat} (h : scanExtend buf = some r) :
    lineKind r.1 := by
  unfold scanExtend at h
  split at h
  · injection h with h
    subst h
    exact ⟨fun hc => TokKind.noConfusion hc, fun hc => TokKind.noConfusion hc,
      fun hc => TokKind.noConfusion hc⟩
  · exact Option.noConfusion h

lemma lineKind_scanBlock {buf : Str} {r : Token × Nat} (h : scanBlock buf = some r) :
    lineKind r.1 := by
  unfold scanBlock at h
  split at h
  · injection h with h
    subst h
    exact ⟨fun hc => TokKind.noConfusion hc, fun hc => TokKind.noConfusion hc,
      fun hc => TokKind.noConfusion hc⟩
  · exact Option.noConfusion h

lemma lineKind_scanAssignment {buf : Str} {r : Token × Nat} (h : scanAssignment buf = some r) :
    lineKind r.1 := by
  unfold scanAssignment at h
  split at h
  · injection h with h
    subst h
    exact ⟨fun hc => TokKind.noConfusion hc, fun hc => TokKind.noConfusion hc,
      fun hc => TokKind.noConfusion hc⟩
  · exact Option.noConfusion h

lemma lineKind_scanTag {buf : Str} {r : Token × Nat} (h : scanTag buf = some r) :
    lineKind r.1 := by
  unfold scanTag at h
  split at h
  · injection h with h
    subst h
    exact ⟨fun hc => TokKind.noConfusion hc, fun hc => TokKind.noConfusion hc,
      fun hc => TokKind.noConfusion hc⟩
  · exact Option.noConfusion h

lemma lineKind_scanId {buf : Str} {r : Token × Nat} (h : scanId buf = some r) :
    lineKind r.1 := by
  unfold scanId at h
  split at h
  · injection h with h
    subst h
    exact ⟨fun hc => TokKind.noConfusion hc, fun hc => TokKind.noConfusion hc,
      fun hc => TokKind.noConfusion hc⟩
  · exact Option.noConfusion h

lemma lineKind_scanClass {buf : Str} {r : Token × Nat} (h : scanClass buf = some r) :
    lineKind r.1 := by
  unfold scanClass at h
  split at h
  · injection h with h
    subst h
    exact ⟨fun hc => TokKind.noConfusion hc, fun hc => TokKind.noConfusion hc,
      fun hc => TokKind.noConfusion hc⟩
  · exact Option.noConfusion h

lemma lineKind_scanAttribute {buf : Str} {r : Token × Nat} (h : scanAttribute buf = some r) :
    lineKind r.1 := by
  unfold scanAttribute at h
  split at h
  · split at h
    · injection h with h
      subst h
      exact ⟨fun hc => TokKind.noConfusion hc, fun hc => TokKind.noConfusion hc,
        fun hc => TokKind.noConfusion hc⟩
    · injection h with h
      subst h
      exact ⟨fun hc => TokKind.noConfusion hc, fun hc => TokKind.noConfusion hc,
        fun hc => TokKind.noConfusion hc⟩
  · exact Option.noConfusion h

lemma lineKind_scanComment {buf : Str} {r : Token × Nat} (h : scanComment buf = some r) :
    lineKind r.1 := by
  unfold scanComment at h
  split at h
  · injection h with h
    subst h
    exact ⟨fun hc => TokKind.noConfusion hc, fun hc => TokKind.noConfusion hc,
      fun hc => TokKind.noConfusion hc⟩
  · exact Option.noConfusion h

lemma lineKind_scanText {buf : Str} {r : Token × Nat} (h : scanText buf = some r) :
    lineKind r.1 := by
  unfold scanText at h
  split at h
  · injection h with h
    subst h
    exact ⟨fun hc => TokKind.noConfusion hc, fun hc => TokKind.noConfusion hc,
      fun hc => TokKind.noConfusion hc⟩
  · exact Option.noConfusion h

/-- No token produced by the `scnLine` cascade is an Indent, Outdent or
end-of-input token. -/
lemma scanLine_kind {buf : Str} {r : Token × Nat} (h : scanLine buf = some r) :
    lineKind r.1 := by
  unfold scanLine at h
  split at h
  · rename_i heq; injection h with h; subst h; exact lineKind_scanDoctype heq
  · split at h
    · rename_i heq; injection h with h; subst h; exact lineKind_scanCondition heq
    · split at h
      · rename_i heq; injection h with h; subst h; exact lineKind_scanEach heq
      · split at h
        · rename_i heq; injection h with h; subst h; exact lineKind_scanImport heq
        · split at h
          · rename_i heq; injection h with h; subst h; exact lineKind_scanExtend heq
          · split at h
            · rename_i heq; injection h with h; subst h; exact lineKind_scanBlock heq
            · split at h
              · rename_i heq; injection h with h; subst h; exact lineKind_scanAssignment heq
              · split at h
                · rename_i heq; injection h with h; subst h; exact lineKind_scanTag heq
                · split at h
                  · rename_i heq; injection h with h; subst h; exact lineKind_scanId heq
                  · split at h
                    · rename_i heq; injection h with h; subst h; exact lineKind_scanClass heq
                    · split at h
                      · rename_i heq
                        injection h with h; subst h; exact lineKind_scanAttribute heq
                      · split at h
                        · rename_i heq
                          injection h with h; subst h; exact lineKind_scanComment heq
                        · exact lineKind_scanText h

lemma iteIndOut : (if TokKind.tokIndent = TokKind.tokOutdent then (1 : Nat) else 0) = 0 := rfl

lemma iteIndInd : (if TokKind.tokIndent = TokKind.tokIndent then (1 : Nat) else 0) = 1 := rfl

lemma iteOutOut : (if TokKind.tokOutdent = TokKind.tokOutdent then (1 : Nat) else 0) = 1 := rfl

lemma iteOutInd : (if TokKind.tokOutdent = TokKind.tokIndent then (1 : Nat) else 0) = 0 := rfl

lemma iteEofOut : (if TokKind.tokEOF = TokKind.tokOutdent then (1 : Nat) else 0) = 0 := rfl

lemma iteEofInd : (if TokKind.tokEOF = TokKind.tokIndent then (1 : Nat) else 0) = 0 := rfl

/-- `scanIndent` emitting a token: the potential rises by one on Indent,
falls by one on Outdent (the extra pops go to the stash) and is unchanged
otherwise; only Outdents are stashed; no end-of-input token arises. -/
lemma scanIndent_tok (s : Scanner) (t : Token) (s1 : Scanner)
    (hs : ∀ u ∈ s.stash, u.kind = .tokOutdent)
    (h : scanIndent s = (.tok t, s1)) :
    s1.readRaw = s.readRaw ∧ (∀ u ∈ s1.stash, u.kind = .tokOutdent) ∧
    phi s1 + (if t.kind = .tokOutdent then 1 else 0) =
      phi s + (if t.kind = .tokIndent then 1 else 0) ∧
    t.kind ≠ .tokEOF := by
  unfold scanIndent at h
  split at h
  · injection h with h1 h2
    injection h1 with h1
    subst h1
    subst h2
    exact ⟨rfl, hs, by simp, fun hc => TokKind.noConfusion hc⟩
  · dsimp only [] at h
    split at h
    · injection h with h1 h2
      injection h1 with h1
      subst h1
      subst h2
      refine ⟨rfl, hs, ?_, fun hc => TokKind.noConfusion hc⟩
      simp only [phi, List.length_append, List.length_cons, List.length_nil,
        iteIndOut, if_true]
      omega
    · split at h
      · rename_i hc2
        injection h with h1 h2
        injection h1 with h1
        subst h1
        subst h2
        refine ⟨rfl, ?_, ?_, fun hc => TokKind.noConfusion hc⟩
        · intro u hu
          rcases List.mem_append.mp hu with hu | hu
          · exact hs u hu
          · rw [List.eq_of_mem_replicate hu]
        · have hle := consumeIndents_le s.indents s.buffer
          obtain ⟨-, hrem⟩ := hc2
          simp only [phi, List.length_take, List.length_append, List.length_replicate,
            iteOutInd, if_true, Nat.min_eq_left hle]
          omega
      · split at h
        · injection h with h1 h2
          exact IndentOut.noConfusion h1
        · injection h with h1 h2
          exact IndentOut.noConfusion h1

/-- `scanIndent` emitting no token leaves stack and stash untouched. -/
lemma scanIndent_noTok (s s1 : Scanner) (h : scanIndent s = (.noTok, s1)) :
    s1.readRaw = s.readRaw ∧ s1.stash = s.stash ∧ phi s1 = phi s := by
  unfold scanIndent at h
  split at h
  · injection h with h1 h2
    exact IndentOut.noConfusion h1
  · dsimp only [] at h
    split at h
    · injection h with h1 h2
      exact IndentOut.noConfusion h1
    · split at h
      · injection h with h1 h2
        exact IndentOut.noConfusion h1
      · split at h
        · injection h with h1 h2
          exact IndentOut.noConfusion h1
        · injection h with h1 h2
          subst h2
          exact ⟨rfl, rfl, rfl⟩

/-- One `Next` step: the stash holds only Outdents, and the potential
moves in lockstep with the emitted token — up one for an Indent, down one
for an Outdent, flat otherwise; the end-of-input token only appears at
potential zero. -/
lemma next_step : ∀ (f : Nat) (s : Scanner) (t : Token) (s1 : Scanner),
    s.readRaw = false → (∀ u ∈ s.stash, u.kind = .tokOutdent) →
    next f s = some (t, s1) →
    s1.readRaw = false ∧ (∀ u ∈ s1.stash, u.kind = .tokOutdent) ∧
    phi s1 + (if t.kind = .tokOutdent then 1 else 0) =
      phi s + (if t.kind = .tokIndent then 1 else 0) ∧
    (t.kind = .tokEOF → phi s = 0) := by
  intro f
  induction f with
  | zero => intro s t s1 _ _ h; exact Option.noConfusion h
  | succ f ih =>
    intro s t s1 hr hs h
    simp only [next, hr, Bool.false_eq_true, reduceIte] at h
    split at h
    · -- stashed token
      rename_i u rest hst
      have hstash : s.stash = u :: rest := by rw [← readline_stash s, hst]
      injection h with h
      injection h with h1 h2
      subst h1
      subst h2
      have hu : u.kind = .tokOutdent := hs u (by rw [hstash]; exact List.mem_cons_self u rest)
      refine ⟨by simp [readline_readRaw, hr], ?_, ?_, ?_⟩
      · intro w hw
        exact hs w (by rw [hstash]; exact List.mem_cons_of_mem u hw)
      · simp only [phi, readline_indents, hstash, hu, List.length_cons, iteOutInd, if_true]
        omega
      · intro he
        rw [hu] at he
        exact TokKind.noConfusion he
    · -- empty stash: dispatch on the mode
      rename_i hst
      have hstash : s.stash = [] := by rw [← readline_stash s, hst]
      split at h
      · -- scnEOF
        split at h
        · rename_i hne
          rw [readline_indents] at hne
          injection h with h
          injection h with h1 h2
          subst h1
          subst h2
          refine ⟨by simp [readline_readRaw, hr], ?_, ?_, ?_⟩
          · intro w hw
            rw [readline_stash, hstash] at hw
            exact absurd hw (List.not_mem_nil w)
          · simp only [phi, readline_indents, readline_stash, hstash, List.length_dropLast,
              List.length_nil, iteOutInd, if_true]
            omega
          · intro he
            exact absurd he (fun hc => TokKind.noConfusion hc)
        · rename_i hz
          rw [readline_indents] at hz
          injection h with h
          injection h with h1 h2
          subst h1
          subst h2
          refine ⟨by simp [readline_readRaw, hr], ?_, ?_, ?_⟩
          · intro w hw
            rw [readline_stash, hstash] at hw
            exact absurd hw (List.not_mem_nil w)
          · simp only [phi, readline_indents, readline_stash, iteEofOut, iteEofInd]
          · intro _
            simp only [phi, hstash, List.length_nil]
            omega
      · -- scnNewLine
        cases hsi : scanIndent { readline s with mode := ScanMode.scnLine } with
        | mk io s3 =>
          simp only [hsi] at h
          have hphi2 : phi ({ readline s with mode := ScanMode.scnLine } : Scanner) = phi s := by
            simp [phi, readline_indents, readline_stash]
          have hs2 : ∀ u ∈ ({ readline s with mode := ScanMode.scnLine } : Scanner).stash,
              u.kind = .tokOutdent := by
            intro u hu
            apply hs
            rw [← readline_stash s]
            exact hu
          cases io with
          | mismatch => exact Option.noConfusion h
          | noTok =>
            have h2 : next f s3 = some (t, s1) := h
            obtain ⟨hraw3, hstash3, hphi3⟩ := scanIndent_noTok _ _ hsi
            have hr3 : s3.readRaw = false := by
              rw [hraw3]
              simp [readline_readRaw, hr]
            have hs3 : ∀ u ∈ s3.stash, u.kind = .tokOutdent := by
              rw [hstash3]
              exact hs2
            obtain ⟨c1, c2, c3, c4⟩ := ih s3 t s1 hr3 hs3 h2
            refine ⟨c1, c2, ?_, ?_⟩
            · rw [c3, hphi3, hphi2]
            · intro he
              have hz := c4 he
              rw [hphi3, hphi2] at hz
              exact hz
          | tok t2 =>
            injection h with h
            injection h with h1 h2
            subst h1
            subst h2
            obtain ⟨hraw3, hstash3, hphi3, hne⟩ := scanIndent_tok _ _ _ hs2 hsi
            refine ⟨?_, hstash3, ?_, fun he => absurd he hne⟩
            · rw [hraw3]
              simp [readline_readRaw, hr]
            · rw [hphi3, hphi2]
      · -- scnLine
        split at h
        · rename_i tk n hsl
          injection h with h
          injection h with h1 h2
          subst h1
          subst h2
          have hk := scanLine_kind hsl
          refine ⟨by simp [readline_readRaw, hr], ?_, ?_, fun he => absurd he hk.2.2⟩
          · intro u hu
            apply hs
            rw [← readline_stash s]
            exact hu
          · have e1 : (if tk.kind = .tokOutdent then 1 else 0) = 0 := by simp [hk.2.1]
            have e2 : (if tk.kind = .tokIndent then 1 else 0) = 0 := by simp [hk.1]
            rw [e1, e2]
            simp [phi, readline_indents, readline_stash]
        · exact Option.noConfusion h

/-- Stream-level balance: relative to the potential of the start state,
no prefix of the emitted stream closes more scopes than it opened, and a
stream that ran to the end-of-input token closes exactly as many. -/
lemma runScanner_bal : ∀ (f : Nat) (s : Scanner), s.readRaw = false →
    (∀ u ∈ s.stash, u.kind = .tokOutdent) →
    (∀ pre suf, runScanner f s = pre ++ suf →
      tokCnt .tokOutdent pre ≤ tokCnt .tokIndent pre + phi s) ∧
    ((runScanner f s).getLast? = some ⟨.tokEOF, [], []⟩ →
      tokCnt .tokIndent (runScanner f s) + phi s = tokCnt .tokOutdent (runScanner f s)) := by
  intro f
  induction f with
  | zero =>
    intro s hr hs
    constructor
    · intro pre suf hps
      have h0 : pre = [] := (List.append_eq_nil.mp (Eq.symm hps)).1
      subst h0
      simp [tokCnt]
    · intro hlast
      simp [runScanner] at hlast
  | succ f ih =>
    intro s hr hs
    cases hn : next (f + 1) s with
    | none =>
      have hstream : runScanner (f + 1) s = [] := by simp [runScanner, hn]
      constructor
      · intro pre suf hps
        rw [hstream] at hps
        have h0 : pre = [] := (List.append_eq_nil.mp (Eq.symm hps)).1
        subst h0
        simp [tokCnt]
      · intro hlast
        rw [hstream] at hlast
        simp at hlast
    | some r =>
      obtain ⟨t, s1⟩ := r
      obtain ⟨hr1, hs1, hphi, heof⟩ := next_step (f + 1) s t s1 hr hs hn
      by_cases htk : t.kind = .tokEOF
      · have hstream : runScanner (f + 1) s = [t] := by simp [runScanner, hn, htk]
        have hphi0 : phi s = 0 := heof htk
        constructor
        · intro pre suf hps
          rw [hstream] at hps
          cases pre with
          | nil => simp [tokCnt]
          | cons a pre2 =>
            simp only [List.cons_append] at hps
            injection hps with e1 e2
            subst e1
            have h0 : pre2 = [] := (List.append_eq_nil.mp (Eq.symm e2)).1
            subst h0
            simp [tokCnt, List.countP_cons, htk]
        · intro _
          rw [hstream]
          simp [tokCnt, List.countP_cons, htk, hphi0]
      · have hstream : runScanner (f + 1) s = t :: runScanner f s1 := by
          simp [runScanner, hn, htk]
        obtain ⟨ih1, ih2⟩ := ih s1 hr1 hs1
        constructor
        · intro pre suf hps
          rw [hstream] at hps
          cases pre with
          | nil => simp [tokCnt]
          | cons a pre2 =>
            simp only [List.cons_append] at hps
            injection hps with e1 e2
            subst e1
            have hh := ih1 pre2 suf e2
            by_cases ho : t.kind = .tokOutdent
            · have po : (if t.kind = TokKind.tokOutdent then (1 : Nat) else 0) = 1 := by simp [ho]
              have pi2 : (if t.kind = TokKind.tokIndent then (1 : Nat) else 0) = 0 := by simp [ho]
              have do2 : (if decide (t.kind = TokKind.tokOutdent) = true then (1 : Nat) else 0) = 1 := by simp [ho]
              have di2 : (if decide (t.kind = TokKind.tokIndent) = true then (1 : Nat) else 0) = 0 := by simp [ho]
              rw [po, pi2] at hphi
              simp only [tokCnt, List.countP_cons] at hh ⊢
              rw [do2, di2]
              omega
            · by_cases hi : t.kind = .tokIndent
              · have po : (if t.kind = TokKind.tokOutdent then (1 : Nat) else 0) = 0 := by simp [hi]
                have pi2 : (if t.kind = TokKind.tokIndent then (1 : Nat) else 0) = 1 := by simp [hi]
                have do2 : (if decide (t.kind = TokKind.tokOutdent) = true then (1 : Nat) else 0) = 0 := by simp [hi]
                have di2 : (if decide (t.kind = TokKind.tokIndent) = true then (1 : Nat) else 0) = 1 := by simp [hi]
                rw [po, pi2] at hphi
                simp only [tokCnt, List.countP_cons] at hh ⊢
                rw [do2, di2]
                omega
              · have po : (if t.kind = TokKind.tokOutdent then (1 : Nat) else 0) = 0 := by simp [ho, hi]
                have pi2 : (if t.kind = TokKind.tokIndent then (1 : Nat) else 0) = 0 := by simp [ho, hi]
                have do2 : (if decide (t.kind = TokKind.tokOutdent) = true then (1 : Nat) else 0) = 0 := by simp [ho, hi]
                have di2 : (if decide (t.kind = TokKind.tokIndent) = true then (1 : Nat) else 0) = 0 := by simp [ho, hi]
                rw [po, pi2] at hphi
                simp only [tokCnt, List.countP_cons] at hh ⊢
                rw [do2, di2]
                omega
        · intro hlast
          rw [hstream] at hlast ⊢
          cases hrest : runScanner f s1 with
          | nil =>
            rw [hrest] at hlast
            simp only [List.getLast?_singleton] at hlast
            injection hlast with hlast
            exact absurd (by rw [hlast]) htk
          | cons b l =>
            rw [hrest] at hlast
            rw [List.getLast?_cons_cons] at hlast
            have hh := ih2 (by rw [hrest]; exact hlast)
            rw [hrest] at hh
            by_cases ho : t.kind = .tokOutdent
            · have po : (if t.kind = TokKind.tokOutdent then (1 : Nat) else 0) = 1 := by simp [ho]
              have pi2 : (if t.kind = TokKind.tokIndent then (1 : Nat) else 0) = 0 := by simp [ho]
              have do2 : (if decide (t.kind = TokKind.tokOutdent) = true then (1 : Nat) else 0) = 1 := by simp [ho]
              have di2 : (if decide (t.kind = TokKind.tokIndent) = true then (1 : Nat) else 0) = 0 := by simp [ho]
              rw [po, pi2] at hphi
              simp only [tokCnt, List.countP_cons] at hh ⊢
              rw [do2, di2]
              omega
            · by_cases hi : t.kind = .tokIndent
              · have po : (if t.kind = TokKind.tokOutdent then (1 : Nat) else 0) = 0 := by simp [hi]
                have pi2 : (if t.kind = TokKind.tokIndent then (1 : Nat) else 0) = 1 := by simp [hi]
                have do2 : (if decide (t.kind = TokKind.tokOutdent) = true then (1 : Nat) else 0) = 0 := by simp [hi]
                have di2 : (if decide (t.kind = TokKind.tokIndent) = true then (1 : Nat) else 0) = 1 := by simp [hi]
                rw [po, pi2] at hphi
                simp only [tokCnt, List.countP_cons] at hh ⊢
                rw [do2, di2]
                omega
              · have po : (if t.kind = TokKind.tokOutdent then (1 : Nat) else 0) = 0 := by simp [ho, hi]
                have pi2 : (if t.kind = TokKind.tokIndent then (1 : Nat) else 0) = 0 := by simp [ho, hi]
                have do2 : (if decide (t.kind = TokKind.tokOutdent) = true then (1 : Nat) else 0) = 0 := by simp [ho, hi]
                have di2 : (if decide (t.kind = TokKind.tokIndent) = true then (1 : Nat) else 0) = 0 := by simp [ho, hi]
                rw [po, pi2] at hphi
                simp only [tokCnt, List.countP_cons] at hh ⊢
                rw [do2, di2]
                omega

/-- At end of input the scanner synthesizes exactly one Outdent per
still-open indentation-stack entry and then the end-of-input token. -/
lemma runScanner_drain : ∀ (f : Nat) (s : Scanner), s.readRaw = false → s.stash = [] →
    s.buffer = [] → s.reader = [] → s.indents.length < f →
    runScanner f s = List.replicate s.indents.length ⟨.tokOutdent, [], []⟩ ++
      [⟨.tokEOF, [], []⟩] := by
  intro f
  induction f with
  | zero => intro s _ _ _ _ hl; omega
  | succ f ih =>
    intro s hr hs hb hrd hl
    have hread : readline s = { s with reader := [], mode := .scnEOF } := by
      unfold readline
      rw [if_neg (by simp [hb]), hrd]
      rfl
    cases hlen : s.indents with
    | nil =>
      have hnext : next (f + 1) s = some (⟨.tokEOF, [], []⟩,
          { s with reader := [], mode := .scnEOF }) := by
        simp [next, hr, hread, hs, hlen]
      simp [runScanner, hnext, hlen]
    | cons a rest =>
      have hnext : next (f + 1) s = some (⟨.tokOutdent, [], []⟩,
          { s with reader := [], mode := .scnEOF, indents := s.indents.dropLast }) := by
        simp [next, hr, hread, hs, hlen]
      have ihh := ih { s with reader := [], mode := .scnEOF, indents := s.indents.dropLast }
        hr hs hb rfl
        (by rw [hlen] at hl
            simp at hl
            simp [hlen]
            omega)
      simp only [runScanner, hnext]
      rw [if_neg (fun hc => TokKind.noConfusion hc), ihh]
      simp [hlen, List.replicate_succ]

/-- C6: the token stream `Next` produces is indentation-balanced — every
stream that runs to the end-of-input token carries equally many Indent
and Outdent tokens, every prefix carries at least as many Indents as
Outdents, and at end of input exactly one Outdent is synthesized per
still-open indentation-stack entry before the end-of-input token. -/
theorem claim_C6 :
    (∀ (input : Str) (f : Nat) (pre suf : List Token),
      runScanner f (initScanner input) = pre ++ suf →
      tokCnt .tokOutdent pre ≤ tokCnt .tokIndent pre) ∧
    (∀ (input : Str) (f : Nat),
      (runScanner f (initScanner input)).getLast? = some ⟨.tokEOF, [], []⟩ →
      tokCnt .tokIndent (runScanner f (initScanner input)) =
        tokCnt .tokOutdent (runScanner f (initScanner input))) ∧
    (∀ (s : Scanner) (f : Nat), s.readRaw = false → s.stash = [] → s.buffer = [] →
      s.reader = [] → s.indents.length < f →
      runScanner f s = List.replicate s.indents.length ⟨.tokOutdent, [], []⟩ ++
        [⟨.tokEOF, [], []⟩]) := by
  refine ⟨?_, ?_, ?_⟩
  · intro input f pre suf hps
    have hb := (runScanner_bal f (initScanner input) rfl
      (by intro u hu; exact absurd hu (List.not_mem_nil u))).1 pre suf hps
    simpa [phi, initScanner] using hb
  · intro input f hlast
    have hb := (runScanner_bal f (initScanner input) rfl
      (by intro u hu; exact absurd hu (List.not_mem_nil u))).2 hlast
    simpa [phi, initScanner] using hb
  · intro s f hr hs hb hrd hl
    exact runScanner_drain f s hr hs hb hrd hl

/-- The scanner state left at end of input with two still-open
indentation scopes, for the C6 witness. -/
def c6eof : Scanner := ⟨[], [chars "  ", chars "    "], [], .scnEOF, [], false⟩

/-- Witness for C6 on the document `div\n  p\n` (stream: tag, Indent,
tag, Outdent, end-of-input) and on an end-of-input state with two open
scopes (stream: two Outdents then end-of-input). -/
theorem claim_C6_witness :
    tokCnt .tokOutdent [⟨.tokTag, chars "div", []⟩, ⟨.tokIndent, chars "  ", []⟩,
        ⟨.tokTag, chars "p", []⟩] ≤
      tokCnt .tokIndent [⟨.tokTag, chars "div", []⟩, ⟨.tokIndent, chars "  ", []⟩,
        ⟨.tokTag, chars "p", []⟩] ∧
    tokCnt .tokIndent (runScanner 10 (initScanner (chars "div\n  p\n"))) =
      tokCnt .tokOutdent (runScanner 10 (initScanner (chars "div\n  p\n"))) ∧
    runScanner 4 c6eof = List.replicate c6eof.indents.length ⟨.tokOutdent, [], []⟩ ++
      [⟨.tokEOF, [], []⟩] :=
  ⟨claim_C6.1 (chars "div\n  p\n") 10
      [⟨.tokTag, chars "div", []⟩, ⟨.tokIndent, chars "  ", []⟩, ⟨.tokTag, chars "p", []⟩]
      [⟨.tokOutdent, [], []⟩, ⟨.tokEOF, [], []⟩] (by rfl),
   claim_C6.2.1 (chars "div\n  p\n") 10 (by rfl),
   claim_C6.2.2 c6eof 4 rfl rfl rfl rfl (by decide)⟩

/-!
## No `NamedBlock` in parsed trees (claim C9)
-/

lemma countNBL_append (a b : List Node) : countNBL (a ++ b) = countNBL a + countNBL b := by
  induction a with
  | nil => simp [countNBL]
  | cons c t ih =>
    show countNB c + countNBL (t ++ b) = countNB c + countNBL t + countNBL b
    rw [ih]
    omega

/-- All registered named-block entries have NamedBlock-free children. -/
def entsNBFree (ents : Entries) : Prop := ∀ x ∈ ents, countNBL x.2.children = 0

/-- All override entries have NamedBlock-free children. -/
def ovNBFree (ov : Ov) : Prop := ∀ name e, ov name = some e → countNBL e.children = 0

lemma noOv_NBFree : ovNBFree noOv := fun _ _ h => Option.noConfusion h

lemma entLookup_NBFree {ents : Entries} (h : entsNBFree ents) : ovNBFree (entLookup ents) := by
  intro name e he
  simp only [entLookup, Option.map_eq_some'] at he
  obtain ⟨x, hx, hxe⟩ := he
  rw [← hxe]
  exact h x (List.mem_of_find?_eq_some hx)

lemma mergeNamedBlock_NBFree {children : List Node} {ours : Option NBEntry}
    (hc : countNBL children = 0) (ho : ∀ e, ours = some e → countNBL e.children = 0) :
    countNBL (mergeNamedBlock children ours) = 0 := by
  cases ours with
  | none => simpa [mergeNamedBlock]
  | some e =>
    have he := ho e rfl
    cases hm : e.modifier <;>
      simp [mergeNamedBlock, hm, pushAll_eq, unshiftAll_eq, countNBL_append, hc, he]

lemma expectTok_named {k : TokKind} {p : PSt} {rp : Token × PSt}
    (h : expectTok k p = .ok rp) : rp.2.named = p.named := by
  unfold expectTok at h
  split at h
  · split at h
    · injection h with h
      rw [← h]
    · exact Except.noConfusion h
  · exact Except.noConfusion h

lemma parseTextF_NB {p : PSt} {rp : Node × PSt} (h : parseTextF p = .ok rp) :
    countNB rp.1 = 0 ∧ rp.2.named = p.named := by
  simp only [parseTextF, bind, Except.bind] at h
  split at h
  · exact Except.noConfusion h
  · rename_i tp heq
    injection h with h
    rw [← h]
    exact ⟨rfl, expectTok_named heq⟩

lemma parseExtendF_NB {env : FileEnv} {p : PSt} {rp : Node × PSt}
    (h : parseExtendF env p = .ok rp) : countNB rp.1 = 0 ∧ rp.2.named = p.named := by
  unfold parseExtendF at h
  split at h
  · exact Except.noConfusion h
  · split at h
    · exact Except.noConfusion h
    · rename_i t p2 heq
      split at h
      · exact Except.noConfusion h
      · injection h with h
        rw [← h]
        refine ⟨rfl, ?_⟩
        exact expectTok_named heq

/-- No parser production ever places a `NamedBlock` node in the tree:
given NamedBlock-free overrides and a NamedBlock-free side map, every
parse result is NamedBlock-free and keeps the side map NamedBlock-free. -/
lemma parseAll_NBFree : ∀ f : Nat,
    (∀ (env : FileEnv) (ov : Ov) (p : PSt) (rp : Node × PSt), ovNBFree ov →
      entsNBFree p.named → parseToken env ov f p = .ok rp →
      countNB rp.1 = 0 ∧ entsNBFree rp.2.named) ∧
    (∀ (env : FileEnv) (ov : Ov) (isTag : Bool) (p : PSt)
      (rp : (List Node × List AttrN) × PSt), ovNBFree ov → entsNBFree p.named →
      parseBlockF env ov isTag f p = .ok rp →
      countNBL rp.1.1 = 0 ∧ entsNBFree rp.2.named) ∧
    (∀ (env : FileEnv) (ov : Ov) (isTag : Bool) (p : PSt) (acc : List Node)
      (attrs : List AttrN) (rp : (List Node × List AttrN) × PSt), ovNBFree ov →
      entsNBFree p.named → countNBL acc = 0 →
      parseBlockLoop env ov isTag f p acc attrs = .ok rp →
      countNBL rp.1.1 = 0 ∧ entsNBFree rp.2.named) ∧
    (∀ (env : FileEnv) (ov : Ov) (p : PSt) (rp : Node × PSt), ovNBFree ov →
      entsNBFree p.named → parseCommentF env ov f p = .ok rp →
      countNB rp.1 = 0 ∧ entsNBFree rp.2.named) ∧
    (∀ (env : FileEnv) (ov : Ov) (p : PSt) (rp : Node × PSt), ovNBFree ov →
      entsNBFree p.named → parseTagF env ov f p = .ok rp →
      countNB rp.1 = 0 ∧ entsNBFree rp.2.named) ∧
    (∀ (env : FileEnv) (ov : Ov) (name : Str) (p : PSt) (attrs : List AttrN)
      (blk : Option (List Node)) (rp : Node × PSt), ovNBFree ov → entsNBFree p.named →
      countNBO blk = 0 → parseTagLoop env ov name f p attrs blk = .ok rp →
      countNB rp.1 = 0 ∧ entsNBFree rp.2.named) ∧
    (∀ (env : FileEnv) (ov : Ov) (p : PSt) (rp : Node × PSt), ovNBFree ov →
      entsNBFree p.named → parseConditionF env ov f p = .ok rp →
      countNB rp.1 = 0 ∧ entsNBFree rp.2.named) ∧
    (∀ (env : FileEnv) (ov : Ov) (expr : Str) (p : PSt) (pos neg : Option (List Node))
      (rp : Node × PSt), ovNBFree ov → entsNBFree p.named → countNBO pos = 0 →
      countNBO neg = 0 → parseCondLoop env ov expr f p pos neg = .ok rp →
      countNB rp.1 = 0 ∧ entsNBFree rp.2.named) ∧
    (∀ (env : FileEnv) (ov : Ov) (p : PSt) (rp : Node × PSt), ovNBFree ov →
      entsNBFree p.named → parseEachF env ov f p = .ok rp →
      countNB rp.1 = 0 ∧ entsNBFree rp.2.named) ∧
    (∀ (env : FileEnv) (ov : Ov) (p : PSt) (rp : Node × PSt), ovNBFree ov →
      entsNBFree p.named → parseNamedBlockF env ov f p = .ok rp →
      countNB rp.1 = 0 ∧ entsNBFree rp.2.named) ∧
    (∀ (env : FileEnv) (p : PSt) (rp : Node × PSt), entsNBFree p.named →
      parseImportF env f p = .ok rp → countNB rp.1 = 0 ∧ entsNBFree rp.2.named) ∧
    (∀ (env : FileEnv) (ov : Ov) (p : PSt) (acc : List Node)
      (r : List Node × Entries × Option Str), ovNBFree ov → entsNBFree p.named →
      countNBL acc = 0 → parseUnitLoop env ov f p acc = .ok r →
      countNBL r.1 = 0 ∧ entsNBFree r.2.1) ∧
    (∀ (env : FileEnv) (ov : Ov) (toks : List Token) (r : List Node × Entries × Option Str),
      ovNBFree ov → parseUnitF env ov f toks = .ok r →
      countNBL r.1 = 0 ∧ entsNBFree r.2.1) ∧
    (∀ (env : FileEnv) (name : Str) (ov : Ov) (tree : List Node), ovNBFree ov →
      parseWithF env f name ov = .ok tree → countNBL tree = 0) ∧
    (∀ (env : FileEnv) (toks : List Token) (tree : List Node),
      parseTopF env f toks = .ok tree → countNBL tree = 0) := by
  intro f
  induction f with
  | zero =>
    refine ⟨?_, ?_, ?_, ?_, ?_, ?_, ?_, ?_, ?_, ?_, ?_, ?_, ?_, ?_, ?_⟩ <;>
      intro _ _ _ _ <;> intros <;>
      exact absurd (by assumption : Except.error "fuel" = Except.ok _)
        (fun hc => Except.noConfusion hc)
  | succ f ih =>
    obtain ⟨iTok, iBlk, iBL, iCom, iTag, iTL, iCnd, iCL, iEach, iNB, iImp, iUL,
      iUnit, iWith, iTop⟩ := ih
    refine ⟨?_, ?_, ?_, ?_, ?_, ?_, ?_, ?_, ?_, ?_, ?_, ?_, ?_, ?_, ?_⟩
    · -- parseToken
      intro env ov p rp hov hp h
      simp only [parseToken, bind, Except.bind, pure, Except.pure] at h
      split at h
      · exact Except.noConfusion h
      · split at h
        · -- tokIndent
          split at h
          · exact Except.noConfusion h
          · rename_i bp heq
            injection h with h
            subst h
            obtain ⟨h1, h2⟩ := iBlk env ov false p bp hov hp heq
            exact ⟨h1, h2⟩
        · -- tokDoctype
          split at h
          · exact Except.noConfusion h
          · rename_i tp heq
            injection h with h
            subst h
            exact ⟨rfl, by rw [expectTok_named heq]; exact hp⟩
        · -- tokComment
          exact iCom env ov p rp hov hp h
        · -- tokTag
          exact iTag env ov p rp hov hp h
        · -- tokText
          split at h
          · exact Except.noConfusion h
          · rename_i np heq
            injection h with h
            subst h
            obtain ⟨h1, h2⟩ := parseTextF_NB heq
            exact ⟨h1, by rw [h2]; exact hp⟩
        · -- tokAssignment
          split at h
          · exact Except.noConfusion h
          · rename_i tp heq
            injection h with h
            subst h
            exact ⟨rfl, by rw [expectTok_named heq]; exact hp⟩
        · -- tokIf
          exact iCnd env ov p rp hov hp h
        · -- tokEach
          exact iEach env ov p rp hov hp h
        · -- tokNamedBlock
          exact iNB env ov p rp hov hp h
        · -- tokImport
          exact iImp env p rp hp h
        · -- tokExtend
          obtain ⟨h1, h2⟩ := parseExtendF_NB h
          exact ⟨h1, by rw [h2]; exact hp⟩
        · -- unexpected token
          exact Except.noConfusion h
    · -- parseBlockF
      intro env ov isTag p rp hov hp h
      simp only [parseBlockF, bind, Except.bind, pure, Except.pure] at h
      split at h
      · exact Except.noConfusion h
      · rename_i tp heq
        exact iBL env ov isTag tp.2 [] [] rp hov
          (by rw [expectTok_named heq]; exact hp) rfl h
    · -- parseBlockLoop
      intro env ov isTag p acc attrs rp hov hp hacc h
      simp only [parseBlockLoop, bind, Except.bind, pure, Except.pure] at h
      split at h
      · exact Except.noConfusion h
      · split at h
        · -- EOF/Outdent: close the block
          split at h
          · exact Except.noConfusion h
          · rename_i tp heq
            injection h with h
            subst h
            exact ⟨hacc, by rw [expectTok_named heq]; exact hp⟩
        · split at h
          · -- blank: skip
            exact iBL env ov isTag { p with toks := p.toks.tail } acc attrs rp hov hp hacc h
          · split at h
            · -- bare attribute tokens
              split at h
              · exact Except.noConfusion h
              · split at h
                · exact Except.noConfusion h
                · rename_i tp heq
                  exact iBL env ov isTag tp.2 acc _ rp hov
                    (by rw [expectTok_named heq]; exact hp) hacc h
            · -- a construct
              split at h
              · exact Except.noConfusion h
              · rename_i np heq
                obtain ⟨h1, h2⟩ := iTok env ov p np hov hp heq
                refine iBL env ov isTag np.2 (acc ++ [np.1]) attrs rp hov h2 ?_ h
                rw [countNBL_append]
                simp [countNBL, h1, hacc]
    · -- parseCommentF
      intro env ov p rp hov hp h
      simp only [parseCommentF, bind, Except.bind, pure, Except.pure] at h
      split at h
      · exact Except.noConfusion h
      · rename_i tp heq
        have hp2 : entsNBFree tp.2.named := by rw [expectTok_named heq]; exact hp
        split at h
        · split at h
          · split at h
            · exact Except.noConfusion h
            · rename_i bp heqb
              injection h with h
              subst h
              obtain ⟨h1, h2⟩ := iBlk env ov false tp.2 bp hov hp2 heqb
              exact ⟨h1, h2⟩
          · injection h with h
            subst h
            exact ⟨rfl, hp2⟩
        · injection h with h
          subst h
          exact ⟨rfl, hp2⟩
    · -- parseTagF
      intro env ov p rp hov hp h
      simp only [parseTagF, bind, Except.bind, pure, Except.pure] at h
      split at h
      · exact Except.noConfusion h
      · rename_i tp heq
        exact iTL env ov tp.1.value tp.2 [] none rp hov
          (by rw [expectTok_named heq]; exact hp) rfl h
    · -- parseTagLoop
      intro env ov name p attrs blk rp hov hp hblk h
      simp only [parseTagLoop, bind, Except.bind, pure, Except.pure] at h
      split at h
      · injection h with h
        subst h
        exact ⟨hblk, hp⟩
      · split at h
        · -- tokIndent: parse the block body
          split at h
          · exact Except.noConfusion h
          · rename_i bp heqb
            injection h with h
            subst h
            obtain ⟨h1, h2⟩ := iBlk env ov true p bp hov hp heqb
            refine ⟨?_, h2⟩
            cases blk with
            | none => exact h1
            | some cs =>
              have hcs : countNBL cs = 0 := hblk
              show countNBL (cs ++ bp.1.1) = 0
              rw [countNBL_append, hcs, h1]
        · -- tokId
          split at h
          · exact Except.noConfusion h
          · rename_i tp heq
            split at h
            · exact Except.noConfusion h
            · exact iTL env ov name tp.2 _ blk rp hov
                (by rw [expectTok_named heq]; exact hp) hblk h
        · -- tokClass
          split at h
          · exact Except.noConfusion h
          · rename_i tp heq
            split at h
            · exact Except.noConfusion h
            · exact iTL env ov name tp.2 _ blk rp hov
                (by rw [expectTok_named heq]; exact hp) hblk h
        · -- tokAttribute
          split at h
          · exact Except.noConfusion h
          · rename_i tp heq
            split at h
            · exact Except.noConfusion h
            · exact iTL env ov name tp.2 _ blk rp hov
                (by rw [expectTok_named heq]; exact hp) hblk h
        · -- tokText
          split at h
          · split at h
            · exact Except.noConfusion h
            · rename_i np heq
              obtain ⟨h1, h2⟩ := parseTextF_NB heq
              refine iTL env ov name np.2 attrs _ rp hov (by rw [h2]; exact hp) ?_ h
              show countNBO (some (np.1 :: blk.getD [])) = 0
              have hgd : countNBL (blk.getD []) = 0 := by
                cases blk with
                | none => rfl
                | some cs => simpa [countNBO] using hblk
              simp [countNBO, countNBL, h1, hgd]
          · injection h with h
            subst h
            exact ⟨hblk, hp⟩
        · -- other token: close the tag
          injection h with h
          subst h
          exact ⟨hblk, hp⟩
    · -- parseConditionF
      intro env ov p rp hov hp h
      simp only [parseConditionF, bind, Except.bind, pure, Except.pure] at h
      split at h
      · exact Except.noConfusion h
      · rename_i tp heq
        exact iCL env ov tp.1.value tp.2 none none rp hov
          (by rw [expectTok_named heq]; exact hp) rfl rfl h
    · -- parseCondLoop
      intro env ov expr p pos neg rp hov hp hpos hneg h
      simp only [parseCondLoop, bind, Except.bind, pure, Except.pure] at h
      split at h
      · injection h with h
        subst h
        show countNBO pos + countNBO neg = 0 ∧ _
        exact ⟨by omega, hp⟩
      · split at h
        · -- tokIndent: positive block
          split at h
          · exact Except.noConfusion h
          · rename_i bp heqb
            obtain ⟨h1, h2⟩ := iBlk env ov false p bp hov hp heqb
            exact iCL env ov expr bp.2 (some bp.1.1) neg rp hov h2 h1 hneg h
        · -- tokElseIf
          split at h
          · exact Except.noConfusion h
          · rename_i tp heq
            have hp2 : entsNBFree tp.2.named := by rw [expectTok_named heq]; exact hp
            split at h
            · split at h
              · exact Except.noConfusion h
              · split at h
                · exact Except.noConfusion h
                · rename_i cp heqc
                  obtain ⟨h1, h2⟩ := iCnd env ov tp.2 cp hov hp2 heqc
                  refine iCL env ov expr cp.2 pos (some [cp.1]) rp hov h2 hpos ?_ h
                  simp [countNBO, countNBL, h1]
            · exact Except.noConfusion h
        · -- tokElse
          split at h
          · exact Except.noConfusion h
          · rename_i tp heq
            have hp2 : entsNBFree tp.2.named := by rw [expectTok_named heq]; exact hp
            split at h
            · split at h
              · -- else if
                split at h
                · exact Except.noConfusion h
                · rename_i cp heqc
                  obtain ⟨h1, h2⟩ := iCnd env ov tp.2 cp hov hp2 heqc
                  refine iCL env ov expr cp.2 pos (some [cp.1]) rp hov h2 hpos ?_ h
                  simp [countNBO, countNBL, h1]
              · split at h
                · -- else block
                  split at h
                  · exact Except.noConfusion h
                  · rename_i bp heqb
                    obtain ⟨h1, h2⟩ := iBlk env ov false tp.2 bp hov hp2 heqb
                    exact iCL env ov expr bp.2 pos (some bp.1.1) rp hov h2 hpos h1 h
                · exact Except.noConfusion h
            · exact Except.noConfusion h
        · -- other token: close the condition
          injection h with h
          subst h
          show countNBO pos + countNBO neg = 0 ∧ _
          exact ⟨by omega, hp⟩
    · -- parseEachF
      intro env ov p rp hov hp h
      simp only [parseEachF, bind, Except.bind, pure, Except.pure] at h
      split at h
      · exact Except.noConfusion h
      · rename_i tp heq
        have hp2 : entsNBFree tp.2.named := by rw [expectTok_named heq]; exact hp
        split at h
        · split at h
          · split at h
            · exact Except.noConfusion h
            · rename_i bp heqb
              injection h with h
              subst h
              obtain ⟨h1, h2⟩ := iBlk env ov false tp.2 bp hov hp2 heqb
              exact ⟨h1, h2⟩
          · injection h with h
            subst h
            exact ⟨rfl, hp2⟩
        · injection h with h
          subst h
          exact ⟨rfl, hp2⟩
    · -- parseNamedBlockF
      intro env ov p rp hov hp h
      simp only [parseNamedBlockF, bind, Except.bind, pure, Except.pure] at h
      split at h
      · exact Except.noConfusion h
      · rename_i tp heq
        have hp2 : entsNBFree tp.2.named := by rw [expectTok_named heq]; exact hp
        split at h
        · exact Except.noConfusion h
        · split at h
          · -- body present (Indent follows)
            split at h
            · split at h
              · exact Except.noConfusion h
              · rename_i bp heqb
                obtain ⟨h1, h2⟩ := iBlk env ov false tp.2 bp hov hp2 heqb
                split at h
                · injection h with h
                  subst h
                  refine ⟨rfl, ?_⟩
                  intro x hx
                  rcases List.mem_append.mp hx with hx | hx
                  · exact h2 x hx
                  · rw [List.mem_singleton.mp hx]
                    exact h1
                · split at h
                  · injection h with h
                    subst h
                    refine ⟨rfl, ?_⟩
                    intro x hx
                    rcases List.mem_append.mp hx with hx | hx
                    · exact h2 x hx
                    · rw [List.mem_singleton.mp hx]
                      exact h1
                  · injection h with h
                    subst h
                    refine ⟨mergeNamedBlock_NBFree h1 (fun e he => hov tp.1.value e he), ?_⟩
                    intro x hx
                    rcases List.mem_append.mp hx with hx | hx
                    · exact h2 x hx
                    · rw [List.mem_singleton.mp hx]
                      exact h1
            · split at h
              · injection h with h
                subst h
                refine ⟨rfl, ?_⟩
                intro x hx
                rcases List.mem_append.mp hx with hx | hx
                · exact hp2 x hx
                · rw [List.mem_singleton.mp hx]
                  exact (rfl : countNBL [] = 0)
              · split at h
                · injection h with h
                  subst h
                  refine ⟨rfl, ?_⟩
                  intro x hx
                  rcases List.mem_append.mp hx with hx | hx
                  · exact hp2 x hx
                  · rw [List.mem_singleton.mp hx]
                    exact (rfl : countNBL [] = 0)
                · injection h with h
                  subst h
                  refine ⟨mergeNamedBlock_NBFree (rfl : countNBL [] = 0) (fun e he => hov tp.1.value e he), ?_⟩
                  intro x hx
                  rcases List.mem_append.mp hx with hx | hx
                  · exact hp2 x hx
                  · rw [List.mem_singleton.mp hx]
                    exact (rfl : countNBL [] = 0)
          · split at h
            · injection h with h
              subst h
              refine ⟨rfl, ?_⟩
              intro x hx
              rcases List.mem_append.mp hx with hx | hx
              · exact hp2 x hx
              · rw [List.mem_singleton.mp hx]
                exact (rfl : countNBL [] = 0)
            · split at h
              · injection h with h
                subst h
                refine ⟨rfl, ?_⟩
                intro x hx
                rcases List.mem_append.mp hx with hx | hx
                · exact hp2 x hx
                · rw [List.mem_singleton.mp hx]
                  exact (rfl : countNBL [] = 0)
              · injection h with h
                subst h
                refine ⟨mergeNamedBlock_NBFree (rfl : countNBL [] = 0) (fun e he => hov tp.1.value e he), ?_⟩
                intro x hx
                rcases List.mem_append.mp hx with hx | hx
                · exact hp2 x hx
                · rw [List.mem_singleton.mp hx]
                  exact (rfl : countNBL [] = 0)
    · -- parseImportF
      intro env p rp hp h
      simp only [parseImportF, bind, Except.bind, pure, Except.pure] at h
      split at h
      · exact Except.noConfusion h
      · rename_i tp heq
        split at h
        · exact Except.noConfusion h
        · split at h
          · exact Except.noConfusion h
          · rename_i tree heqt
            injection h with h
            subst h
            exact ⟨iTop env _ tree heqt, by rw [expectTok_named heq]; exact hp⟩
    · -- parseUnitLoop
      intro env ov p acc r hov hp hacc h
      simp only [parseUnitLoop, bind, Except.bind, pure, Except.pure] at h
      split at h
      · injection h with h
        subst h
        exact ⟨hacc, hp⟩
      · split at h
        · injection h with h
          subst h
          exact ⟨hacc, hp⟩
        · split at h
          · exact iUL env ov { p with toks := p.toks.tail } acc r hov hp hacc h
          · split at h
            · exact Except.noConfusion h
            · rename_i np heq
              obtain ⟨h1, h2⟩ := iTok env ov p np hov hp heq
              refine iUL env ov np.2 (acc ++ [np.1]) r hov h2 ?_ h
              rw [countNBL_append]
              simp [countNBL, h1, hacc]
    · -- parseUnitF
      intro env ov toks r hov h
      simp only [parseUnitF] at h
      exact iUL env ov ⟨toks, [], none⟩ [] r hov (fun x hx => absurd hx (List.not_mem_nil x))
        rfl h
    · -- parseWithF
      intro env name ov tree hov h
      simp only [parseWithF, bind, Except.bind, pure, Except.pure] at h
      split at h
      · exact Except.noConfusion h
      · split at h
        · exact Except.noConfusion h
        · rename_i ur hequ
          obtain ⟨h1, h2⟩ := iUnit env ov _ ur hov hequ
          split at h
          · injection h with h
            subst h
            exact h1
          · exact iWith env _ (entLookup ur.2.1) tree (entLookup_NBFree h2) h
    · -- parseTopF
      intro env toks tree h
      simp only [parseTopF, bind, Except.bind, pure, Except.pure] at h
      split at h
      · exact Except.noConfusion h
      · rename_i ur hequ
        obtain ⟨h1, h2⟩ := iUnit env noOv toks ur noOv_NBFree hequ
        split at h
        · injection h with h
          subst h
          exact h1
        · exact iWith env _ (entLookup ur.2.1) tree (entLookup_NBFree h2) h

/-- C9: a parsed tree never contains a `NamedBlock` node — `Parse()`
output is NamedBlock-free whether or not inheritance is involved, the
per-unit parse is already NamedBlock-free before inheritance resolution,
and `parseNamedBlock` itself always splices a plain `Block` into the
tree while appending the registered entry to the name-keyed side map. -/
theorem claim_C9 :
    (∀ (env : FileEnv) (f : Nat) (toks : List Token) (tree : List Node),
      parseTopF env f toks = .ok tree → countNBL tree = 0) ∧
    (∀ (env : FileEnv) (ov : Ov) (f : Nat) (toks : List Token)
      (r : List Node × Entries × Option Str), ovNBFree ov →
      parseUnitF env ov f toks = .ok r → countNBL r.1 = 0) ∧
    (∀ (env : FileEnv) (ov : Ov) (f : Nat) (p : PSt) (rp : Node × PSt),
      parseNamedBlockF env ov f p = .ok rp →
      (∃ cs, rp.1 = .block cs) ∧ ∃ rest e, rp.2.named = rest ++ [e]) := by
  refine ⟨?_, ?_, ?_⟩
  · intro env f toks tree h
    exact (parseAll_NBFree f).2.2.2.2.2.2.2.2.2.2.2.2.2.2 env toks tree h
  · intro env ov f toks r hov h
    exact ((parseAll_NBFree f).2.2.2.2.2.2.2.2.2.2.2.2.1 env ov toks r hov h).1
  · intro env ov f p rp h
    cases f with
    | zero => exact Except.noConfusion h
    | succ f =>
      simp only [parseNamedBlockF, bind, Except.bind, pure, Except.pure] at h
      split at h
      · exact Except.noConfusion h
      · rename_i tp heq
        split at h
        · exact Except.noConfusion h
        · split at h
          · split at h
            · split at h
              · exact Except.noConfusion h
              · rename_i bp heqb
                split at h
                · injection h with h
                  subst h
                  exact ⟨⟨_, rfl⟩, _, _, rfl⟩
                · split at h
                  · injection h with h
                    subst h
                    exact ⟨⟨_, rfl⟩, _, _, rfl⟩
                  · injection h with h
                    subst h
                    exact ⟨⟨_, rfl⟩, _, _, rfl⟩
            · split at h
              · injection h with h
                subst h
                exact ⟨⟨_, rfl⟩, _, _, rfl⟩
              · split at h
                · injection h with h
                  subst h
                  exact ⟨⟨_, rfl⟩, _, _, rfl⟩
                · injection h with h
                  subst h
                  exact ⟨⟨_, rfl⟩, _, _, rfl⟩
          · split at h
            · injection h with h
              subst h
              exact ⟨⟨_, rfl⟩, _, _, rfl⟩
            · split at h
              · injection h with h
                subst h
                exact ⟨⟨_, rfl⟩, _, _, rfl⟩
              · injection h with h
                subst h
                exact ⟨⟨_, rfl⟩, _, _, rfl⟩

/-- Environment for the C9 witness: no other files exist. -/
def c9env : FileEnv := fun _ => none

/-- A one-named-block document (`block content` then end of input). -/
def c9toks : List Token :=
  [⟨.tokNamedBlock, chars "content", [("Modifier", [])]⟩, ⟨.tokEOF, [], []⟩]

/-- The parser state the C9 witness starts `parseNamedBlock` from. -/
def c9p : PSt := ⟨c9toks, [], none⟩

/-- The `parseNamedBlock` result on `c9p`: a plain block in the tree,
the `NamedBlock` only in the side map. -/
def c9rp : Node × PSt :=
  (.block [], ⟨[⟨.tokEOF, [], []⟩], [(chars "content", ⟨.dflt, []⟩)], none⟩)

/-- The per-unit parse result on `c9toks`. -/
def c9r : List Node × Entries × Option Str :=
  ([.block []], [(chars "content", ⟨.dflt, []⟩)], none)

/-- Witness for C9: the one-named-block document parses to a tree with
zero `NamedBlock` nodes (with and without inheritance resolution), and
`parseNamedBlock` splices a plain block while appending the entry to the
side map. -/
theorem claim_C9_witness :
    countNBL [Node.block []] = 0 ∧
    countNBL c9r.1 = 0 ∧
    ((∃ cs, c9rp.1 = .block cs) ∧ ∃ rest e, c9rp.2.named = rest ++ [e]) :=
  ⟨claim_C9.1 c9env 6 c9toks [Node.block []] (by rfl),
   claim_C9.2.1 c9env noOv 6 c9toks c9r noOv_NBFree (by rfl),
   claim_C9.2.2 c9env noOv 5 c9p c9rp (by rfl)⟩

end Slim
